import Mathlib

/-!
Verification of the Arc-to-Firefox history importer (`src/main.py`) against its
natural-language specification.  The Python source is shallowly embedded below:
JSON documents become an inductive `Json` type, the SQLite store becomes lists
of rows, Python exceptions become `Except String`, and the wall-clock "now" of
`calculate_frecency` and the process-randomized `hash` builtin become explicit
parameters (the spec itself demands a pinned "now" for testability).
-/

/-- A JSON value, as produced by Python's `json.load`.  Numbers are modelled as
exact rationals (ints and floats idealized to their numeric value); objects
keep their key/value pairs in insertion order, with unique keys, exactly as a
Python `dict` does. -/
inductive Json where
  | null
  | bool (b : Bool)
  | num (q : ℚ)
  | str (s : String)
  | arr (elems : List Json)
  | obj (fields : List (String × Json))

/-- Python truthiness of a JSON-decoded value (`bool(x)`). -/
def Json.truthy : Json → Bool
  | .null => false
  | .bool b => b
  | .num q => q != 0
  | .str s => s != ""
  | .arr xs => !xs.isEmpty
  | .obj fs => !fs.isEmpty

/-- Truthiness of a `dict.get` result: Python's `None` (for an absent key) is
falsy, otherwise the value's own truthiness applies. -/
def optTruthy : Option Json → Bool
  | some j => j.truthy
  | none => false

/-- Python's `x or y`: `x` if `x` is truthy, otherwise `y` (here for values
obtained from `dict.get`, where an absent key yields falsy `None`). -/
def pyOr (x y : Option Json) : Option Json :=
  match x with
  | some j => if j.truthy then some j else y
  | none => y

/-- The field list of a JSON object; any other shape raises `AttributeError`
(in Python only `dict` has `.get`, so e.g. `"x".get(...)` raises). -/
def asDict : Json → Except String (List (String × Json))
  | .obj fields => .ok fields
  | _ => .error "AttributeError: object has no attribute get"

/-- Characters stripped by Python's `str.strip()` (the ASCII whitespace set;
the rare non-ASCII Unicode space characters are not modelled). -/
def pySpace (c : Char) : Bool :=
  c = ' ' || c = '\t' || c = '\n' || c = '\r' || c = '\x0b' || c = '\x0c'

/-- Python's `str.strip()` on the character list: drop whitespace from the
front, then from the back. -/
def pyStripList (l : List Char) : List Char :=
  ((l.dropWhile pySpace).reverse.dropWhile pySpace).reverse

/-- Python's `str.strip()`. -/
def pyStrip (s : String) : String :=
  String.mk (pyStripList s.toList)

/-- One parsed visit, as built by `parse_arc_history` (`src/main.py:102-106`):
the dict `{"title": ..., "id": ..., "timestamp": ...}`.  The `id` field is the
raw `sidebarItem.get("id")` result, `Json.null` when the key is absent (Python
stores `None` in that case). -/
structure VisitRecord where
  title : Json
  arcId : Json
  timestamp : Json

/-- The `visits` mapping of `parse_arc_history`: a Python `dict` from URL key
to the list of visit records, in insertion order with unique keys, modelled as
an association list. -/
abbrev VisitsByUrl := List (String × List VisitRecord)

/-- `visits[key].append(rec)` on a `defaultdict(list)`: extend the list stored
under `key` if the key is present, otherwise add the new key at the end. -/
def addVisit : VisitsByUrl → String → VisitRecord → VisitsByUrl
  | [], k, r => [(k, [r])]
  | (k₀, l) :: rest, k, r =>
      if k₀ = k then (k₀, l ++ [r]) :: rest else (k₀, l) :: addVisit rest k r

/-- The loop body of `parse_arc_history` (`src/main.py:94-106`) for a single
item of the top-level `items` collection, threading the `visits` map.
Mirrors the source exactly: an item that is not a dict, or a dict without a
`"sidebarItem"` key, is skipped; a non-dict `sidebarItem`, a non-dict value
under its `"data"` key, a non-dict value under `"tab"`, or a truthy non-string
`savedURL` raises `AttributeError` (no `.get`, resp. no `.strip`). -/
def processItem (m : VisitsByUrl) (item : Json) : Except String VisitsByUrl :=
  match item with
  | .obj fields =>
    match fields.lookup "sidebarItem" with
    | some sbJson => do
        let sb ← asDict sbJson
        let dataD ← asDict ((sb.lookup "data").getD (.obj []))
        let tab ← asDict ((dataD.lookup "tab").getD (.obj []))
        let title := tab.lookup "savedTitle"
        let url := tab.lookup "savedURL"
        let arcId := sb.lookup "id"
        let timestamp := pyOr (fields.lookup "archivedAt") (tab.lookup "timeLastActiveAt")
        if optTruthy title && optTruthy url && optTruthy timestamp then
          match url with
          | some (.str s) =>
              pure (addVisit m (pyStrip s)
                ⟨title.getD .null, arcId.getD .null, timestamp.getD .null⟩)
          | _ => throw "AttributeError: object has no attribute strip"
        else
          pure m
    | none => pure m
  | _ => pure m

/-- Python iteration `for item in x`: lists yield their elements, strings
their characters (as one-character strings), dicts their keys; other values
raise `TypeError: not iterable`. -/
def iterElems : Json → Except String (List Json)
  | .arr xs => .ok xs
  | .str s => .ok (s.toList.map (fun c => Json.str (String.mk [c])))
  | .obj fs => .ok (fs.map (fun p => Json.str p.1))
  | _ => .error "TypeError: object is not iterable"

/-- `parse_arc_history` (`src/main.py:89-108`).  `arc_data.get("items", [])`
requires `arc_data` to be a dict (anything else raises `AttributeError`), then
the items are folded through `processItem` starting from the empty map. -/
def parse_arc_history (arc_data : Json) : Except String VisitsByUrl := do
  let itemsJson ←
    match arc_data with
    | .obj fields => pure ((fields.lookup "items").getD (.arr []))
    | _ => throw "AttributeError: object has no attribute get"
  let items ← iterElems itemsJson
  items.foldlM processItem []

/-- Python's `int(q)` on an exact numeric value: truncation toward zero. -/
def ratTrunc (q : ℚ) : ℤ := q.num.tdiv q.den

/-- `arc_to_firefox_time` (`src/main.py:34-38`): add the Mac epoch offset,
scale to microseconds, truncate with `int(...)`. -/
def arc_to_firefox_time (arc_timestamp : ℚ) : ℤ :=
  let mac_epoch : ℚ := 978307200
  let unix_time := arc_timestamp + mac_epoch
  ratTrunc (unix_time * 1000000)

/-- `calculate_frecency` (`src/main.py:40-59`).  In the source `now` is the
wall clock read inside the function; it is passed explicitly here, as the spec
requires for reproducible scores. -/
def calculate_frecency (now : ℤ) (visit_count : ℤ) (last_visit_time : ℤ) : ℤ :=
  let base_score := visit_count * 100
  let days_ago : ℚ := ((now : ℚ) - (last_visit_time : ℚ)) / (24 * 60 * 60 * 1000000)
  let recency_bonus : ℤ :=
    if days_ago < 1 then 1000
    else if days_ago < 7 then 500
    else if days_ago < 30 then 100
    else 0
  let total_score := base_score + recency_bonus
  min total_score 10000

/-- `calculate_url_hash` (`src/main.py:61-63`).  Python's builtin string
`hash` is process-randomized and non-portable, so it enters as the explicit
parameter `pyHash`; the source then masks it to a non-negative 31-bit value. -/
def calculate_url_hash (pyHash : String → ℤ) (url : String) : ℤ :=
  Int.land (pyHash url) 0x7fffffff

/-- A row of Firefox's `moz_places` table, with the columns touched by the
importer (`src/main.py:140-169`).  `last_visit_date` is a nullable column. -/
structure PlaceRow where
  id : ℤ
  url : String
  title : Json
  rev_host : String
  visit_count : ℤ
  hidden : ℤ
  typed : ℤ
  frecency : ℤ
  last_visit_date : Option ℤ
  guid : String
  foreign_count : ℤ
  url_hash : ℤ

/-- A row of Firefox's `moz_historyvisits` table (`src/main.py:178-181`). -/
structure VisitRow where
  id : ℤ
  from_visit : ℤ
  place_id : ℤ
  visit_date : ℤ
  visit_type : ℤ
  session : ℤ
deriving DecidableEq

/-- The destination store: the two tables, each in physical row order (new
rows are appended; `SELECT ... WHERE url = ?` with `fetchone` returns the
first match in that order). -/
structure Store where
  places : List PlaceRow
  visits : List VisitRow

def emptyStore : Store := ⟨[], []⟩

/-- `SELECT MAX(id) FROM t` followed by `or 0` (`src/main.py:117-121`): the
maximum of the stored ids, `0` when the table is empty (SQL `MAX` of nothing
is `NULL`, which is falsy). -/
def maxIdOr0 : List ℤ → ℤ
  | [] => 0
  | x :: xs => xs.foldl max x

/-- Reading a timestamp value as a number for arithmetic or as a comparison
operand: Python numbers are themselves, `True`/`False` are `1`/`0` (`bool` is
an `int` subclass); strings, lists, dicts and `None` raise `TypeError` when
added to an integer. -/
def jsonToNum : Json → Except String ℚ
  | .num q => .ok q
  | .bool b => .ok (if b then 1 else 0)
  | _ => .error "TypeError: unsupported operand type"

/-- Python's `>` on two timestamp values, as invoked by
`max(visit_list, key=lambda v: v["timestamp"])`: numbers (and bools) compare
numerically, strings lexicographically; other mixtures raise `TypeError`.
(Python additionally orders two lists elementwise; that case is not exercised
by any statement below and is mapped to the same `TypeError`.) -/
def jsonGt (x y : Json) : Except String Bool :=
  match jsonToNum x, jsonToNum y with
  | .ok a, .ok b => .ok (decide (b < a))
  | _, _ =>
    match x, y with
    | .str a, .str b => .ok (decide (b < a))
    | _, _ => .error "TypeError: not supported between instances"

/-- `max(visit_list, key=lambda v: v["timestamp"])` (`src/main.py:134`):
Python's `max` keeps the first of equal elements, replacing the current
maximum only on strictly greater keys, and raises on an empty sequence. -/
def latestVisit : List VisitRecord → Except String VisitRecord
  | [] => .error "ValueError: max() arg is an empty sequence"
  | v :: vs =>
      vs.foldlM (fun acc w => do
        let b ← jsonGt w.timestamp acc.timestamp
        pure (if b then w else acc)) v

/-- The `UPDATE moz_places ... WHERE id = ?` statement (`src/main.py:149-154`)
applied to one stored row: rows with a matching id get the new title,
last-visit date and frecency, `visit_count` incremented by this run's count,
`typed = 1` and `hidden = 0`; other rows are untouched. -/
def updPlace (pid : ℤ) (title : Json) (lvd : ℤ) (vc : ℤ) (frec : ℤ)
    (p : PlaceRow) : PlaceRow :=
  if p.id = pid then
    { p with title := title, last_visit_date := some lvd,
             visit_count := p.visit_count + vc, frecency := frec,
             typed := 1, hidden := 0 }
  else p

/-- The mutable state threaded through the import loop: the evolving store,
the two id counters, and the two result counters (`src/main.py:127-130`). -/
structure ImportState where
  store : Store
  placeCtr : ℤ
  visitCtr : ℤ
  inserted : ℕ
  visitsAdded : ℕ

/-- The inner loop body of `import_to_firefox` (`src/main.py:172-183`) for a
single visit record of the current URL: convert the timestamp, skip if a
visit row with the same `(place_id, visit_date)` pair already exists,
otherwise insert a fresh row and advance the visit id counter. -/
def processVisit (placeId : ℤ) (st : ImportState) (v : VisitRecord) :
    Except String ImportState := do
  let t ← jsonToNum v.timestamp
  let visit_time := arc_to_firefox_time t
  if (st.store.visits.find? (fun w =>
        w.place_id == placeId && w.visit_date == visit_time)).isSome then
    pure st
  else
    pure { st with
      store := { st.store with
        visits := st.store.visits ++ [⟨st.visitCtr, 0, placeId, visit_time, 1, 0⟩] },
      visitCtr := st.visitCtr + 1,
      visitsAdded := st.visitsAdded + 1 }

/-- `url.split('/')[2][::-1] if len(url.split('/')) > 2 else ''`
(`src/main.py:166`): the third slash-separated segment, reversed. -/
def revHost (url : String) : String :=
  let parts := url.splitOn "/"
  if parts.length > 2 then String.mk (parts.getD 2 "").toList.reverse else ""

/-- The outer loop body of `import_to_firefox` (`src/main.py:132-185`) for one
`(url, visit_list)` entry of the parsed map: pick the latest record, convert
its timestamp, then either update the first stored row with this URL (only if
the candidate time is strictly newer than the stored `last_visit_date`, a
`NULL` counting as 0) or insert a fresh `PlaceRow` under the next place id;
finally run the visit loop and count the URL as processed. -/
def processUrl (pyHash : String → ℤ) (now : ℤ) (st : ImportState)
    (e : String × List VisitRecord) : Except String ImportState := do
  let url := e.1
  let visit_list := e.2
  let latest ← latestVisit visit_list
  let title := latest.title
  let lt ← jsonToNum latest.timestamp
  let last_visit_time := arc_to_firefox_time lt
  let visit_count : ℤ := visit_list.length
  match st.store.places.find? (fun p => p.url == url) with
  | some existing =>
      let st1 :=
        if last_visit_time > (existing.last_visit_date.getD 0) then
          { st with store := { st.store with
              places := st.store.places.map (updPlace existing.id title
                last_visit_time visit_count
                (calculate_frecency now visit_count last_visit_time)) } }
        else st
      let st2 ← visit_list.foldlM (processVisit existing.id) st1
      pure { st2 with inserted := st2.inserted + 1 }
  | none =>
      let frecency := calculate_frecency now visit_count last_visit_time
      let url_hash := calculate_url_hash pyHash url
      let newRow : PlaceRow :=
        ⟨st.placeCtr, url, title, revHost url, visit_count, 0, 1, frecency,
          some last_visit_time, "arc_" ++ toString st.placeCtr, 0, url_hash⟩
      let st1 := { st with
        store := { st.store with places := st.store.places ++ [newRow] },
        placeCtr := st.placeCtr + 1 }
      let st2 ← visit_list.foldlM (processVisit newRow.id) st1
      pure { st2 with inserted := st2.inserted + 1 }

/-- `import_to_firefox` (`src/main.py:110-196`): seed both id counters from
the stored maxima plus one, fold the per-URL step over the parsed map, and
return `(inserted_count, total_visits_added)` with the committed store.  A
raised exception aborts the run before the commit, so the caller keeps the
original store in that case (see `runImport`). -/
def import_to_firefox (pyHash : String → ℤ) (now : ℤ) (visits : VisitsByUrl)
    (s : Store) : Except String ((ℕ × ℕ) × Store) := do
  let max_place_id := maxIdOr0 (s.places.map (·.id))
  let max_visit_id := maxIdOr0 (s.visits.map (·.id))
  let st0 : ImportState := ⟨s, max_place_id + 1, max_visit_id + 1, 0, 0⟩
  let stF ← visits.foldlM (processUrl pyHash now) st0
  pure ((stF.inserted, stF.visitsAdded), stF.store)

/-- The store visible after an import attempt: the new store when the run
committed, the unchanged original when the run raised (SQLite rolls back the
uncommitted transaction). -/
def runImport (pyHash : String → ℤ) (now : ℤ) (visits : VisitsByUrl)
    (s : Store) : Store :=
  match import_to_firefox pyHash now visits s with
  | .ok (_, sNew) => sNew
  | .error _ => s

/-- The outcome of `json.load` at the file boundary (`load_arc_data`,
`src/main.py:79-87`): `none` models a `json.JSONDecodeError`, turned into the
`ValueError` the caller reports; `some` is the decoded document. -/
def load_arc_data : Option Json → Except String Json
  | none => .error "Invalid JSON in Arc file"
  | some j => .ok j

/-- Values accepted by Python's `len(...)` (`src/main.py:244` applies it to
`arc_data.get('items', [])` before parsing). -/
def lenOk : Json → Bool
  | .arr _ => true
  | .str _ => true
  | .obj _ => true
  | _ => false

/-- `main` (`src/main.py:198-273`) from the point where the archive file is
read, with the path preconditions already checked: returns the process exit
code and the store left behind.  Every raised error is caught by `main` and
turned into exit code 1 with the store unmodified; a dry run stops before
touching the store; otherwise the import result is committed and the run
exits 0. -/
def mainRun (pyHash : String → ℤ) (now : ℤ) (raw : Option Json)
    (dryRun : Bool) (s : Store) : ℕ × Store :=
  match load_arc_data raw with
  | .error _ => (1, s)
  | .ok arcData =>
    match arcData with
    | .obj fields =>
      if lenOk ((fields.lookup "items").getD (.arr [])) then
        match parse_arc_history arcData with
        | .error _ => (1, s)
        | .ok visits =>
          if dryRun then (0, s)
          else
            match import_to_firefox pyHash now visits s with
            | .ok (_, sNew) => (0, sNew)
            | .error _ => (1, s)
      else (1, s)
    | _ => (1, s)

/-- A concrete stand-in for Python's randomized string hash, used to
instantiate witnesses. -/
def hash0 : String → ℤ := fun _ => 0

/-- The concrete archive refuting C10: one well-formed item whose `savedURL`
is the single-space string `" "`, which is truthy yet strips to `""`. -/
def c10Archive : Json :=
  .obj [("items", .arr [.obj [
    ("sidebarItem", .obj [("data", .obj [("tab", .obj [
      ("savedTitle", .str "T"), ("savedURL", .str " ")])])]),
    ("archivedAt", .num 1)]])]

/-- The concrete archive refuting C7: the single item carries BOTH fields,
`archivedAt` (present, with value `0`) and `timeLastActiveAt` (= 5), yet the
parsed record's timestamp is 5: Python's `or` falls through on the falsy
present value `0`. -/
def c7Archive : Json :=
  .obj [("items", .arr [.obj [
    ("sidebarItem", .obj [("id", .str "i"), ("data", .obj [("tab", .obj [
      ("savedTitle", .str "T"), ("savedURL", .str "u"),
      ("timeLastActiveAt", .num 5)])])]),
    ("archivedAt", .num 0)]])]

/-- Witness data for C7: the tab object of a well-formed item. -/
def c7wTab : List (String × Json) :=
  [("savedTitle", .str "T"), ("savedURL", .str "u"), ("timeLastActiveAt", .num 5)]

/-- Witness data for C7: the sidebar object. -/
def c7wSb : List (String × Json) :=
  [("id", .str "i"), ("data", .obj [("tab", .obj c7wTab)])]

/-- Witness data for C7: the item fields, with a truthy `archivedAt`. -/
def c7wFields : List (String × Json) :=
  [("sidebarItem", .obj c7wSb), ("archivedAt", .num 7)]

/-- Whether the parser loop "considers" an item: it must be a dict containing
the key `"sidebarItem"` (`src/main.py:94`). -/
def considered : Json → Bool
  | .obj fields => (fields.lookup "sidebarItem").isSome
  | _ => false

/-- The concrete archive refuting C8: its only item has a `sidebarItem` whose
value is a string, so `item["sidebarItem"].get(...)` raises `AttributeError`
and the whole parse fails instead of skipping the item. -/
def c8Archive : Json := .obj [("items", .arr [.obj [("sidebarItem", .str "x")]])]

/-- The structurally empty archive used against C9. -/
def c9EmptyArchive : Json := .obj [("items", .arr [])]

/-- The id of the first stored place row with the given URL, as resolved by
`SELECT id ... FROM moz_places WHERE url = ?` with `fetchone`. -/
def pidOf (places : List PlaceRow) (u : String) : Option ℤ :=
  (places.find? (fun p => p.url == u)).map (fun p => p.id)

/-- How many stored place rows carry the given URL. -/
def countUrl (places : List PlaceRow) (u : String) : ℕ :=
  places.countP (fun p => p.url == u)

/-- The duplicate-avoidance keys of the visit table. -/
def visitPairs (l : List VisitRow) : List (ℤ × ℤ) :=
  l.map (fun w => (w.place_id, w.visit_date))

/-- A `(place_id, visit_date)` pair is present in the visit table. -/
def pairMem (l : List VisitRow) (pid d : ℤ) : Prop :=
  (pid, d) ∈ visitPairs l

/-- The maximum place id stored in a store (0 when empty), the base of the
id counter seeding. -/
def maxPlaceId (s : Store) : ℤ := maxIdOr0 (s.places.map (fun p => p.id))

/-- A store absorbs a visit map when every entry's URL resolves to a place id
and every visit pair is already present (and the pure computations of the
per-URL step succeed). -/
def Absorbed (s : Store) (visits : VisitsByUrl) : Prop :=
  ∀ e ∈ visits, ∃ pid, pidOf s.places e.1 = some pid ∧
    (∃ latest lt, latestVisit e.2 = .ok latest ∧
      jsonToNum latest.timestamp = .ok lt) ∧
    ∀ v ∈ e.2, ∃ t, jsonToNum v.timestamp = .ok t ∧
      pairMem s.visits pid (arc_to_firefox_time t)

/-- The initial loop state of a run against store `s`. -/
def initState (s : Store) : ImportState :=
  ImportState.mk s (maxIdOr0 (s.places.map (fun p => p.id)) + 1)
    (maxIdOr0 (s.visits.map (fun w => w.id)) + 1) 0 0

/-- The frame invariant of C3: `r` (with URL `u`) sits unchanged at position
`i`, no earlier row carries `u`, place ids are distinct and all lie below the
place counter. -/
def posInv (u : String) (r : PlaceRow) (i : ℕ) (x : ImportState) : Prop :=
  x.store.places[i]? = some r ∧
  (∀ j < i, ∀ p, x.store.places[j]? = some p → p.url ≠ u) ∧
  (x.store.places.map (fun p => p.id)).Nodup ∧
  (∀ p ∈ x.store.places, p.id < x.placeCtr)

/-- The end-to-end archive of C6: two items for URL "https://example.com/a"
at timestamps 100 and 200, one item for "https://example.com/b" at 50. -/
def c6Archive : Json :=
  .obj [("items", .arr [
    .obj [("sidebarItem", .obj [("id", .str "1"), ("data", .obj [("tab", .obj [
        ("savedTitle", .str "A"), ("savedURL", .str "https://example.com/a")])])]),
      ("archivedAt", .num 100)],
    .obj [("sidebarItem", .obj [("id", .str "2"), ("data", .obj [("tab", .obj [
        ("savedTitle", .str "A2"), ("savedURL", .str "https://example.com/a")])])]),
      ("archivedAt", .num 200)],
    .obj [("sidebarItem", .obj [("id", .str "3"), ("data", .obj [("tab", .obj [
        ("savedTitle", .str "B"), ("savedURL", .str "https://example.com/b")])])]),
      ("archivedAt", .num 50)]])]

/-- C1: for every source timestamp `t` (seconds in the Arc epoch),
`arc_to_firefox_time` returns exactly `(t + 978307200) * 1_000_000` truncated
to an integer; on whole-second timestamps the result is the exact product, and
in particular `t = 0` maps to `978307200000000`. -/
theorem C1_timestamp_conversion :
    (∀ t : ℚ, arc_to_firefox_time t = ratTrunc ((t + 978307200) * 1000000)) ∧
    (∀ t : ℤ, arc_to_firefox_time (t : ℚ) = (t + 978307200) * 1000000) ∧
    arc_to_firefox_time 0 = 978307200000000 := by
  refine ⟨fun t => rfl, fun t => ?_, by with_unfolding_all rfl⟩
  have h1 : arc_to_firefox_time (t : ℚ) =
      ratTrunc (((t : ℚ) + 978307200) * 1000000) := rfl
  have h2 : ((t : ℚ) + 978307200) * 1000000 =
      (((t + 978307200) * 1000000 : ℤ) : ℚ) := by push_cast; ring
  rw [h1, h2]
  simp only [ratTrunc, Rat.num_intCast, Rat.den_intCast, Nat.cast_one, Int.tdiv_one]

/-- Witness for C1 at `t = 5`. -/
theorem C1_timestamp_conversion_witness :
    arc_to_firefox_time ((5 : ℤ) : ℚ) = ((5 : ℤ) + 978307200) * 1000000 :=
  C1_timestamp_conversion.2.1 5

/-- C5: `calculate_frecency` returns `min(10000, visit_count * 100 + bonus)`
where the bonus is 1000, 500, 100 or 0 according to the elapsed days
`(now - last_visit) / (86400 * 1_000_000)`, computed by real division before
the bucket comparison; `visit_count = 1` with `last_visit = now` gives 1100,
and `visit_count = 200` at under one day caps at 10000. -/
theorem C5_frecency_formula :
    (∀ now visit_count last_visit : ℤ,
      calculate_frecency now visit_count last_visit =
        min 10000 (visit_count * 100 +
          (if ((now : ℚ) - last_visit) / (86400 * 1000000) < 1 then 1000
           else if ((now : ℚ) - last_visit) / (86400 * 1000000) < 7 then 500
           else if ((now : ℚ) - last_visit) / (86400 * 1000000) < 30 then 100
           else 0))) ∧
    (∀ now : ℤ, calculate_frecency now 1 now = 1100) ∧
    (∀ now lv : ℤ, ((now : ℚ) - lv) / (86400 * 1000000) < 1 →
      calculate_frecency now 200 lv = 10000) := by
  have hc : (24 * 60 * 60 * 1000000 : ℚ) = 86400 * 1000000 := by norm_num
  refine ⟨fun now vc lv => ?_, fun now => ?_, fun now lv h => ?_⟩
  · simp only [calculate_frecency, hc]
    exact min_comm _ _
  · simp [calculate_frecency]
  · simp only [calculate_frecency, hc, if_pos h]
    norm_num

/-- Witness for C5 at `now = 0`, `last_visit = 0`. -/
theorem C5_frecency_formula_witness :
    ((0 : ℚ) - (0 : ℤ)) / (86400 * 1000000) < 1 ∧
      calculate_frecency 0 200 0 = 10000 :=
  ⟨by norm_num, C5_frecency_formula.2.2 0 0 (by norm_num)⟩

theorem exceptBind_ok {α β : Type} (a : α) (f : α → Except String β) :
    (Except.ok a >>= f : Except String β) = f a := rfl

theorem exceptBind_error {α β : Type} (e : String) (f : α → Except String β) :
    ((Except.error e : Except String α) >>= f) = .error e := rfl

theorem exceptPure_bind {α β : Type} (a : α) (f : α → Except String β) :
    ((pure a : Except String α) >>= f) = f a := rfl

theorem exceptPure_eq_ok {α : Type} (a : α) :
    (pure a : Except String α) = .ok a := rfl

theorem foldlM_cons_ok {α σ : Type} (f : σ → α → Except String σ) (x : α)
    (xs : List α) (m r : σ) (h : (x :: xs).foldlM f m = .ok r) :
    ∃ m1, f m x = .ok m1 ∧ xs.foldlM f m1 = .ok r := by
  rw [List.foldlM_cons] at h
  cases hf : f m x with
  | error e => rw [hf, exceptBind_error] at h; exact absurd h (by simp)
  | ok m1 => rw [hf, exceptBind_ok] at h; exact ⟨m1, rfl, h⟩

theorem foldlM_nil_ok {α σ : Type} (f : σ → α → Except String σ) (m r : σ)
    (h : ([] : List α).foldlM f m = .ok r) : r = m := by
  rw [List.foldlM_nil] at h
  exact (Except.ok.inj h).symm

/-- Invariant preservation along an `Except`-valued left fold. -/
theorem foldlM_preserve {α σ : Type} (f : σ → α → Except String σ)
    (P : σ → Prop) (hstep : ∀ m x r, P m → f m x = .ok r → P r) :
    ∀ (xs : List α) (m r : σ), P m → xs.foldlM f m = .ok r → P r := by
  intro xs
  induction xs with
  | nil => intro m r hm h; rw [foldlM_nil_ok f m r h]; exact hm
  | cons x xs ih =>
      intro m r hm h
      obtain ⟨m1, hf, hrest⟩ := foldlM_cons_ok f x xs m r h
      exact ih m1 r (hstep m x m1 hm hf) hrest

theorem addVisit_keys (m : VisitsByUrl) (k : String) (r : VisitRecord) :
    (addVisit m k r).map Prod.fst =
      if k ∈ m.map Prod.fst then m.map Prod.fst
      else m.map Prod.fst ++ [k] := by
  induction m with
  | nil => simp [addVisit]
  | cons e rest ih =>
      obtain ⟨k0, l⟩ := e
      by_cases hk : k0 = k
      · subst hk; simp [addVisit]
      · simp only [addVisit, if_neg hk, List.map_cons, ih, List.mem_cons]
        by_cases hmem : k ∈ rest.map Prod.fst
        · rw [if_pos hmem, if_pos (Or.inr hmem)]
        · rw [if_neg hmem, if_neg ?_]
          · simp
          · rintro (h | h)
            · exact hk h.symm
            · exact hmem h

theorem head_dropWhile_not (p : Char → Bool) :
    ∀ (l : List Char) (c : Char), (l.dropWhile p).head? = some c → p c = false := by
  intro l
  induction l with
  | nil => intro c h; simp [List.dropWhile] at h
  | cons a t ih =>
      intro c h
      rw [List.dropWhile_cons] at h
      by_cases hp : p a
      · rw [if_pos hp] at h; exact ih c h
      · rw [if_neg hp] at h
        simp only [List.head?_cons, Option.some.injEq] at h
        rw [← h]
        exact Bool.not_eq_true _ ▸ (by simpa using hp)

theorem getLast_dropWhile (p : Char → Bool) :
    ∀ l : List Char, l.dropWhile p ≠ [] →
      (l.dropWhile p).getLast? = l.getLast? := by
  intro l
  induction l with
  | nil => simp
  | cons a t ih =>
      intro hne
      rw [List.dropWhile_cons] at hne ⊢
      by_cases hp : p a
      · rw [if_pos hp] at hne ⊢
        cases t with
        | nil => simp [List.dropWhile] at hne
        | cons b t2 => rw [List.getLast?_cons_cons]; exact ih hne
      · rw [if_neg hp]

/-- The two ends of a stripped string are not whitespace. -/
theorem pyStrip_ends (s : String) :
    (∀ c, (pyStrip s).toList.head? = some c → pySpace c = false) ∧
    (∀ c, (pyStrip s).toList.getLast? = some c → pySpace c = false) := by
  have htl : (pyStrip s).toList = pyStripList s.toList := rfl
  rw [htl]
  unfold pyStripList
  constructor
  · intro c h
    rw [List.head?_reverse] at h
    have hne : (s.toList.dropWhile pySpace).reverse.dropWhile pySpace ≠ [] := by
      intro he; rw [he] at h; simp at h
    rw [getLast_dropWhile pySpace _ hne, List.getLast?_reverse] at h
    exact head_dropWhile_not pySpace _ c h
  · intro c h
    rw [List.getLast?_reverse] at h
    exact head_dropWhile_not pySpace _ c h

/-- Any successful step of the parser loop either keeps the map unchanged or
extends it with one record filed under the strip of some source URL string. -/
theorem processItem_ok_shape (m : VisitsByUrl) (item : Json) (mNew : VisitsByUrl)
    (h : processItem m item = .ok mNew) :
    mNew = m ∨ ∃ s r, mNew = addVisit m (pyStrip s) r := by
  cases item with
  | obj fields =>
      simp only [processItem] at h
      cases hsb : fields.lookup "sidebarItem" with
      | none => rw [hsb] at h; exact Or.inl (Except.ok.inj h).symm
      | some sbJson =>
          simp only [hsb] at h
          cases ha : asDict sbJson with
          | error e => simp only [ha, exceptBind_error] at h; exact Except.noConfusion h
          | ok sb =>
              simp only [ha, exceptBind_ok] at h
              cases hb : asDict ((sb.lookup "data").getD (.obj [])) with
              | error e => simp only [hb, exceptBind_error] at h; exact Except.noConfusion h
              | ok dataD =>
                  simp only [hb, exceptBind_ok] at h
                  cases hc : asDict ((dataD.lookup "tab").getD (.obj [])) with
                  | error e => simp only [hc, exceptBind_error] at h; exact Except.noConfusion h
                  | ok tab =>
                      simp only [hc, exceptBind_ok] at h
                      by_cases hcond : (optTruthy (tab.lookup "savedTitle") &&
                          (optTruthy (tab.lookup "savedURL") &&
                            optTruthy (pyOr (fields.lookup "archivedAt")
                              (tab.lookup "timeLastActiveAt")))) = true
                      · rw [Bool.and_assoc] at h
                        rw [if_pos hcond] at h
                        cases hu : tab.lookup "savedURL" with
                        | none => rw [hu] at h; exact Except.noConfusion h
                        | some uj =>
                            rw [hu] at h
                            cases uj with
                            | str s =>
                                exact Or.inr ⟨s, _, (Except.ok.inj h).symm⟩
                            | null => exact Except.noConfusion h
                            | bool b => exact Except.noConfusion h
                            | num q => exact Except.noConfusion h
                            | arr xs => exact Except.noConfusion h
                            | obj fs => exact Except.noConfusion h
                      · rw [Bool.and_assoc] at h
                        rw [if_neg hcond] at h
                        exact Or.inl (Except.ok.inj h).symm
  | null => simp only [processItem] at h; exact Or.inl (Except.ok.inj h).symm
  | bool b => simp only [processItem] at h; exact Or.inl (Except.ok.inj h).symm
  | num q => simp only [processItem] at h; exact Or.inl (Except.ok.inj h).symm
  | str s => simp only [processItem] at h; exact Or.inl (Except.ok.inj h).symm
  | arr xs => simp only [processItem] at h; exact Or.inl (Except.ok.inj h).symm

/-- A successful parse is a successful fold of `processItem` over the items
of an object-shaped document, starting from the empty map. -/
theorem parse_ok_fold (arcData : Json) (m : VisitsByUrl)
    (h : parse_arc_history arcData = .ok m) :
    ∃ fields items, arcData = .obj fields ∧
      iterElems ((fields.lookup "items").getD (.arr [])) = .ok items ∧
      items.foldlM processItem [] = .ok m := by
  cases arcData with
  | obj fields =>
      simp only [parse_arc_history, exceptPure_bind] at h
      cases hi : iterElems ((fields.lookup "items").getD (.arr [])) with
      | error e => simp only [hi, exceptBind_error] at h; exact Except.noConfusion h
      | ok items =>
          simp only [hi, exceptBind_ok] at h
          exact ⟨fields, items, rfl, hi, h⟩
  | null => exact Except.noConfusion h
  | bool b => exact Except.noConfusion h
  | num q => exact Except.noConfusion h
  | str s => exact Except.noConfusion h
  | arr xs => exact Except.noConfusion h

/-- C10 (amended): every key of the parsed map is unique and
whitespace-trimmed at both ends; however, contrary to the claim, a key can be
the empty string (see the counterexample: a `savedURL` that is entirely
whitespace strips to the empty key). -/
theorem C10_parser_key_invariant (arcData : Json) (m : VisitsByUrl)
    (h : parse_arc_history arcData = .ok m) :
    (m.map Prod.fst).Nodup ∧
    ∀ k ∈ m.map Prod.fst,
      (∀ c, k.toList.head? = some c → pySpace c = false) ∧
      (∀ c, k.toList.getLast? = some c → pySpace c = false) := by
  obtain ⟨fields, items, _, _, hfold⟩ := parse_ok_fold arcData m h
  refine foldlM_preserve processItem
    (fun v => (v.map Prod.fst).Nodup ∧
      ∀ k ∈ v.map Prod.fst,
        (∀ c, k.toList.head? = some c → pySpace c = false) ∧
        (∀ c, k.toList.getLast? = some c → pySpace c = false))
    ?_ items [] m ⟨List.nodup_nil, by simp⟩ hfold
  intro v item w hv hw
  rcases processItem_ok_shape v item w hw with heq | ⟨s, r, heq⟩
  · rwa [heq]
  · subst heq
    rw [addVisit_keys]
    by_cases hmem : pyStrip s ∈ v.map Prod.fst
    · rw [if_pos hmem]; exact hv
    · rw [if_neg hmem]
      constructor
      · rw [List.nodup_append]
        exact ⟨hv.1, List.nodup_singleton _, by simpa using hmem⟩
      · intro k hk
        rcases List.mem_append.mp hk with hk | hk
        · exact hv.2 k hk
        · rw [List.mem_singleton.mp hk]
          exact pyStrip_ends s

/-- C10 counterexample: parsing `c10Archive` yields the single key `""`, so
the keys of the parsed map are not all non-empty as claimed. -/
theorem C10_parser_key_cex :
    parse_arc_history c10Archive = .ok [("", [⟨.str "T", .null, .num 1⟩])] ∧
    ¬ (∀ p ∈ [(("" : String), [(⟨.str "T", .null, .num 1⟩ : VisitRecord)])],
        p.1 ≠ "") := by
  refine ⟨by with_unfolding_all rfl, fun hall => ?_⟩
  exact hall _ (List.mem_singleton.mpr rfl) rfl

/-- C7 counterexample: an item carrying `archivedAt` does not necessarily use
it; with `archivedAt = 0` present the parser stores `timeLastActiveAt = 5`. -/
theorem C7_effective_timestamp_cex :
    parse_arc_history c7Archive = .ok [("u", [⟨.str "T", .str "i", .num 5⟩])] ∧
    Json.num 5 ≠ Json.num 0 := by
  refine ⟨by with_unfolding_all rfl, fun h => ?_⟩
  have h5 := Json.num.inj h
  norm_num at h5

/-- C7 (amended): for a considered item with object-shaped nesting, a truthy
title and a truthy string URL, the effective timestamp is `archivedAt`
whenever that field is present AND truthy; when it is absent OR falsy, the
tab's `timeLastActiveAt` is used as the fallback; and an item with no
`savedURL` key is excluded from the map. -/
theorem C7_effective_timestamp :
    (∀ (m : VisitsByUrl) (fields sb dataD tab : List (String × Json))
        (ti : Json) (u : String) (ts : Json),
      fields.lookup "sidebarItem" = some (.obj sb) →
      (sb.lookup "data").getD (.obj []) = .obj dataD →
      (dataD.lookup "tab").getD (.obj []) = .obj tab →
      tab.lookup "savedTitle" = some ti → ti.truthy = true →
      tab.lookup "savedURL" = some (.str u) → (u != "") = true →
      fields.lookup "archivedAt" = some ts → ts.truthy = true →
      processItem m (.obj fields) =
        .ok (addVisit m (pyStrip u) ⟨ti, (sb.lookup "id").getD .null, ts⟩)) ∧
    (∀ (m : VisitsByUrl) (fields sb dataD tab : List (String × Json))
        (ti : Json) (u : String) (ts : Json),
      fields.lookup "sidebarItem" = some (.obj sb) →
      (sb.lookup "data").getD (.obj []) = .obj dataD →
      (dataD.lookup "tab").getD (.obj []) = .obj tab →
      tab.lookup "savedTitle" = some ti → ti.truthy = true →
      tab.lookup "savedURL" = some (.str u) → (u != "") = true →
      (fields.lookup "archivedAt" = none ∨
        ∃ ts0, fields.lookup "archivedAt" = some ts0 ∧ ts0.truthy = false) →
      tab.lookup "timeLastActiveAt" = some ts → ts.truthy = true →
      processItem m (.obj fields) =
        .ok (addVisit m (pyStrip u) ⟨ti, (sb.lookup "id").getD .null, ts⟩)) ∧
    (∀ (m : VisitsByUrl) (fields sb dataD tab : List (String × Json)),
      fields.lookup "sidebarItem" = some (.obj sb) →
      (sb.lookup "data").getD (.obj []) = .obj dataD →
      (dataD.lookup "tab").getD (.obj []) = .obj tab →
      tab.lookup "savedURL" = none →
      processItem m (.obj fields) = .ok m) := by
  refine ⟨?_, ?_, ?_⟩
  · intro m fields sb dataD tab ti u ts h1 h2 h3 h4 hti h6 hu h8 hts
    simp only [processItem, h1, asDict, exceptBind_ok]
    rw [h2]; simp only [asDict, exceptBind_ok]
    rw [h3]; simp only [asDict, exceptBind_ok]
    rw [h4, h6, h8]
    have hOr : pyOr (some ts) (tab.lookup "timeLastActiveAt") = some ts := by
      simp [pyOr, hts]
    rw [hOr]
    have hu2 : (Json.str u).truthy = true := hu
    have hcond : (optTruthy (some ti) && optTruthy (some (.str u)) &&
        optTruthy (some ts)) = true := by
      simp only [optTruthy, hti, hts, hu2]
      rfl
    rw [if_pos hcond]
    exact rfl
  · intro m fields sb dataD tab ti u ts h1 h2 h3 h4 hti h6 hu harc h9 hts
    have hOr : pyOr (fields.lookup "archivedAt") (tab.lookup "timeLastActiveAt")
        = some ts := by
      rcases harc with harc | ⟨ts0, harc, hts0⟩
      · simp [pyOr, harc, h9]
      · simp [pyOr, harc, hts0, h9]
    simp only [processItem, h1, asDict, exceptBind_ok]
    rw [h2]; simp only [asDict, exceptBind_ok]
    rw [h3]; simp only [asDict, exceptBind_ok]
    rw [h4, h6, hOr]
    have hu2 : (Json.str u).truthy = true := hu
    have hcond : (optTruthy (some ti) && optTruthy (some (.str u)) &&
        optTruthy (some ts)) = true := by
      simp only [optTruthy, hti, hts, hu2]
      rfl
    rw [if_pos hcond]
    exact rfl
  · intro m fields sb dataD tab h1 h2 h3 hu
    simp only [processItem, h1, asDict, exceptBind_ok]
    rw [h2]; simp only [asDict, exceptBind_ok]
    rw [h3]; simp only [asDict, exceptBind_ok]
    rw [hu]
    simp [optTruthy, exceptPure_eq_ok]

/-- Witness for C7: on the concrete item the timestamp used is the truthy
`archivedAt = 7`, not the also-present `timeLastActiveAt = 5`. -/
theorem C7_effective_timestamp_witness :
    processItem [] (.obj c7wFields) =
      .ok (addVisit [] (pyStrip "u") ⟨.str "T", .str "i", .num 7⟩) :=
  C7_effective_timestamp.1 [] c7wFields c7wSb
    [("tab", .obj c7wTab)] c7wTab (.str "T") "u" (.num 7)
    (by with_unfolding_all rfl) (by with_unfolding_all rfl)
    (by with_unfolding_all rfl) (by with_unfolding_all rfl)
    (by with_unfolding_all rfl) (by with_unfolding_all rfl)
    (by with_unfolding_all rfl) (by with_unfolding_all rfl)
    (by with_unfolding_all rfl)

/-- C8 counterexample: a type mismatch below the item level (a non-dict
`sidebarItem`) aborts the whole parse with an error; the parser is not total
as claimed. -/
theorem C8_parser_totality_cex :
    parse_arc_history c8Archive =
      .error "AttributeError: object has no attribute get" ∧
    ∀ m, parse_arc_history c8Archive ≠ .ok m := by
  have h1 : parse_arc_history c8Archive =
      .error "AttributeError: object has no attribute get" := by
    with_unfolding_all rfl
  refine ⟨h1, fun m h => ?_⟩
  rw [h1] at h
  exact Except.noConfusion h

/-- C8 (amended): an item that is not a dict, or lacks the `"sidebarItem"`
key, is skipped with the map unchanged; and when the nested `sidebarItem`,
`data` and `tab` values are object-shaped and `savedURL` is absent or a
string, the item never raises — absence of any field only skips the item.
(The original claim fails for non-object nested values: see the
counterexample.) -/
theorem C8_parser_totality :
    (∀ (m : VisitsByUrl) (j : Json), considered j = false →
      processItem m j = .ok m) ∧
    (∀ (m : VisitsByUrl) (fields sb dataD tab : List (String × Json)),
      fields.lookup "sidebarItem" = some (.obj sb) →
      (sb.lookup "data").getD (.obj []) = .obj dataD →
      (dataD.lookup "tab").getD (.obj []) = .obj tab →
      (tab.lookup "savedURL" = none ∨ ∃ s, tab.lookup "savedURL" = some (.str s)) →
      ∃ mNew, processItem m (.obj fields) = .ok mNew) := by
  constructor
  · intro m j hj
    cases j with
    | obj fields =>
        cases hl : fields.lookup "sidebarItem" with
        | some v => simp [considered, hl] at hj
        | none => simp [processItem, hl, exceptPure_eq_ok]
    | null => rfl
    | bool b => rfl
    | num q => rfl
    | str s => rfl
    | arr xs => rfl
  · intro m fields sb dataD tab h1 h2 h3 hu
    rcases hu with hu | ⟨s, hu⟩
    · refine ⟨m, ?_⟩
      simp only [processItem, h1, asDict, exceptBind_ok]
      rw [h2]; simp only [asDict, exceptBind_ok]
      rw [h3]; simp only [asDict, exceptBind_ok]
      rw [hu]
      simp [optTruthy, exceptPure_eq_ok]
    · by_cases hcond : (optTruthy (tab.lookup "savedTitle") &&
          optTruthy (tab.lookup "savedURL") &&
          optTruthy (pyOr (fields.lookup "archivedAt")
            (tab.lookup "timeLastActiveAt"))) = true
      · refine ⟨addVisit m (pyStrip s)
          ⟨(tab.lookup "savedTitle").getD .null, (sb.lookup "id").getD .null,
            (pyOr (fields.lookup "archivedAt")
              (tab.lookup "timeLastActiveAt")).getD .null⟩, ?_⟩
        simp only [processItem, h1, asDict, exceptBind_ok]
        rw [h2]; simp only [asDict, exceptBind_ok]
        rw [h3]; simp only [asDict, exceptBind_ok]
        rw [if_pos hcond, hu]
        exact rfl
      · refine ⟨m, ?_⟩
        simp only [processItem, h1, asDict, exceptBind_ok]
        rw [h2]; simp only [asDict, exceptBind_ok]
        rw [h3]; simp only [asDict, exceptBind_ok]
        rw [if_neg hcond]
        exact rfl

/-- Witness for C8: a number item is not considered and is skipped. -/
theorem C8_parser_totality_witness :
    considered (.num 3) = false ∧ processItem [] (.num 3) = .ok [] :=
  ⟨rfl, C8_parser_totality.1 [] (.num 3) rfl⟩

/-- C9 counterexample: a parseable but structurally empty archive does not
fail; the run completes with exit code 0 (not the claimed non-zero status)
and the store is unchanged. -/
theorem C9_error_handling_cex :
    mainRun hash0 0 (some c9EmptyArchive) false emptyStore = (0, emptyStore) ∧
    (mainRun hash0 0 (some c9EmptyArchive) false emptyStore).1 ≠ 1 := by
  have h1 : mainRun hash0 0 (some c9EmptyArchive) false emptyStore =
      (0, emptyStore) := by with_unfolding_all rfl
  refine ⟨h1, ?_⟩
  rw [h1]
  decide

/-- C9 (amended): a non-parseable archive fails with exit code 1 and no store
mutation; but a parseable, structurally empty archive is not an error — the
run exits 0 and also leaves the store unchanged (nothing to import). -/
theorem C9_error_handling :
    (∀ (hf : String → ℤ) (now : ℤ) (dry : Bool) (s : Store),
      mainRun hf now none dry s = (1, s)) ∧
    (∀ (hf : String → ℤ) (now : ℤ) (s : Store) (fields : List (String × Json)),
      lenOk ((fields.lookup "items").getD (.arr [])) = true →
      parse_arc_history (.obj fields) = .ok [] →
      mainRun hf now (some (.obj fields)) false s = (0, s)) := by
  constructor
  · intro hf now dry s
    rfl
  · intro hf now s fields hlen hparse
    simp only [mainRun, load_arc_data, hlen, hparse, if_true, if_false,
      Bool.false_eq_true, import_to_firefox, List.foldlM_nil, exceptPure_bind]
    rfl

/-- Witness for C9 on the empty archive and empty store. -/
theorem C9_error_handling_witness :
    lenOk ((([("items", Json.arr [])] : List (String × Json)).lookup
        "items").getD (.arr [])) = true ∧
    parse_arc_history (.obj [("items", Json.arr [])]) = .ok [] ∧
    mainRun hash0 0 (some (.obj [("items", Json.arr [])])) false emptyStore =
      (0, emptyStore) :=
  ⟨rfl, rfl,
    C9_error_handling.2 hash0 0 emptyStore [("items", Json.arr [])] rfl rfl⟩

/-- Witness for C10 on the single-item archive: the produced key list is
nodup and trimmed at both ends. -/
theorem C10_parser_key_invariant_witness :
    (([(("" : String), [(⟨.str "T", .null, .num 1⟩ : VisitRecord)])].map
        Prod.fst).Nodup ∧
      ∀ k ∈ [(("" : String), [(⟨.str "T", .null, .num 1⟩ : VisitRecord)])].map
          Prod.fst,
        (∀ c, k.toList.head? = some c → pySpace c = false) ∧
        (∀ c, k.toList.getLast? = some c → pySpace c = false)) :=
  C10_parser_key_invariant c10Archive _ (by with_unfolding_all rfl)

theorem pairMem_append_left (l tl : List VisitRow) (pid d : ℤ)
    (h : pairMem l pid d) : pairMem (l ++ tl) pid d := by
  unfold pairMem visitPairs at h ⊢
  rw [List.map_append]
  exact List.mem_append_left _ h

theorem findVisit_isSome_iff (l : List VisitRow) (pid d : ℤ) :
    ((l.find? (fun w => w.place_id == pid && w.visit_date == d)).isSome = true) ↔
      pairMem l pid d := by
  rw [List.find?_isSome]
  unfold pairMem visitPairs
  simp only [List.mem_map, Bool.and_eq_true, beq_iff_eq]
  constructor
  · rintro ⟨w, hw, h1, h2⟩
    exact ⟨w, hw, by rw [h1, h2]⟩
  · rintro ⟨w, hw, hpair⟩
    obtain ⟨h1, h2⟩ := Prod.mk.injEq .. ▸ hpair
    exact ⟨w, hw, h1, h2⟩

theorem updPlace_url (pid : ℤ) (t : Json) (lvd vc fr : ℤ) (p : PlaceRow) :
    (updPlace pid t lvd vc fr p).url = p.url := by
  unfold updPlace; split <;> rfl

theorem updPlace_id (pid : ℤ) (t : Json) (lvd vc fr : ℤ) (p : PlaceRow) :
    (updPlace pid t lvd vc fr p).id = p.id := by
  unfold updPlace; split <;> rfl

theorem pidOf_map_updPlace (places : List PlaceRow) (pid : ℤ) (t : Json)
    (lvd vc fr : ℤ) (u : String) :
    pidOf (places.map (updPlace pid t lvd vc fr)) u = pidOf places u := by
  unfold pidOf
  rw [List.find?_map]
  have hp : ((fun p : PlaceRow => p.url == u) ∘ updPlace pid t lvd vc fr) =
      fun p : PlaceRow => p.url == u := by
    funext p; simp [Function.comp, updPlace_url]
  rw [hp, Option.map_map]
  congr 1
  funext p
  simp [Function.comp, updPlace_id]

theorem countUrl_map_updPlace (places : List PlaceRow) (pid : ℤ) (t : Json)
    (lvd vc fr : ℤ) (u : String) :
    countUrl (places.map (updPlace pid t lvd vc fr)) u = countUrl places u := by
  unfold countUrl
  rw [List.countP_map]
  congr 1
  funext p
  simp [Function.comp, updPlace_url]

theorem countUrl_append (l1 l2 : List PlaceRow) (u : String) :
    countUrl (l1 ++ l2) u = countUrl l1 u + countUrl l2 u := by
  unfold countUrl
  rw [List.countP_append]

theorem pidOf_append_some (places l2 : List PlaceRow) (u : String) (pid : ℤ)
    (h : pidOf places u = some pid) : pidOf (places ++ l2) u = some pid := by
  unfold pidOf at h ⊢
  rw [List.find?_append]
  cases hf : places.find? (fun p => p.url == u) with
  | none => rw [hf] at h; exact absurd h (by simp)
  | some row => rw [hf] at h; rw [show (some row).or ((l2.find? (fun p => p.url == u))) = some row from rfl]; exact h

theorem pidOf_append_none (places l2 : List PlaceRow) (u : String)
    (h : pidOf places u = none) : pidOf (places ++ l2) u = pidOf l2 u := by
  unfold pidOf at h ⊢
  rw [List.find?_append]
  cases hf : places.find? (fun p => p.url == u) with
  | none => simp only [hf, Option.none_or]
  | some row => rw [hf] at h; exact absurd h (by simp)

theorem le_foldl_max (l : List ℤ) : ∀ a : ℤ, a ≤ l.foldl max a := by
  induction l with
  | nil => intro a; exact le_refl a
  | cons b t ih =>
      intro a
      calc a ≤ max a b := le_max_left a b
        _ ≤ t.foldl max (max a b) := ih (max a b)

theorem mem_le_foldl_max (l : List ℤ) : ∀ (a x : ℤ), x ∈ l → x ≤ l.foldl max a := by
  induction l with
  | nil => intro a x hx; exact absurd hx (List.not_mem_nil x)
  | cons b t ih =>
      intro a x hx
      rcases List.mem_cons.mp hx with rfl | hx
      · calc x ≤ max a x := le_max_right a x
          _ ≤ t.foldl max (max a x) := le_foldl_max t (max a x)
      · exact ih (max a b) x hx

theorem maxIdOr0_ge (l : List ℤ) (x : ℤ) (hx : x ∈ l) : x ≤ maxIdOr0 l := by
  cases l with
  | nil => exact absurd hx (List.not_mem_nil x)
  | cons a t =>
      unfold maxIdOr0
      rcases List.mem_cons.mp hx with rfl | hx
      · exact le_foldl_max t x
      · exact mem_le_foldl_max t a x hx

/-- A successful inner-loop step either finds the `(place_id, visit_date)`
pair and leaves the state untouched, or appends exactly one visit row with
the current counter value. -/
theorem processVisit_ok_shape (pid : ℤ) (st : ImportState) (v : VisitRecord)
    (st2 : ImportState) (h : processVisit pid st v = .ok st2) :
    ∃ t, jsonToNum v.timestamp = .ok t ∧
      st2.store.places = st.store.places ∧ st2.placeCtr = st.placeCtr ∧
      st2.inserted = st.inserted ∧
      ((pairMem st.store.visits pid (arc_to_firefox_time t) ∧ st2 = st) ∨
       (¬ pairMem st.store.visits pid (arc_to_firefox_time t) ∧
         st2.store.visits = st.store.visits ++
           [⟨st.visitCtr, 0, pid, arc_to_firefox_time t, 1, 0⟩] ∧
         st2.visitCtr = st.visitCtr + 1)) := by
  simp only [processVisit] at h
  cases hn : jsonToNum v.timestamp with
  | error e => simp only [hn, exceptBind_error] at h; exact Except.noConfusion h
  | ok t =>
      simp only [hn, exceptBind_ok] at h
      by_cases hp : pairMem st.store.visits pid (arc_to_firefox_time t)
      · rw [if_pos ((findVisit_isSome_iff _ _ _).mpr hp)] at h
        have hst : st2 = st := (Except.ok.inj h).symm
        subst hst
        exact ⟨t, rfl, rfl, rfl, rfl, Or.inl ⟨hp, rfl⟩⟩
      · rw [if_neg (fun hc => hp ((findVisit_isSome_iff _ _ _).mp hc))] at h
        have hst : st2 = { st with
            store := { st.store with visits := st.store.visits ++
              [⟨st.visitCtr, 0, pid, arc_to_firefox_time t, 1, 0⟩] },
            visitCtr := st.visitCtr + 1,
            visitsAdded := st.visitsAdded + 1 } := (Except.ok.inj h).symm
        subst hst
        exact ⟨t, rfl, rfl, rfl, rfl, Or.inr ⟨hp, rfl, rfl⟩⟩

/-- The inner visit loop never touches the place table, the place counter or
the processed-URL count, and only appends to the visit table. -/
theorem foldVisits_frame (pid : ℤ) (vl : List VisitRecord) (st stF : ImportState)
    (h : vl.foldlM (processVisit pid) st = .ok stF) :
    stF.store.places = st.store.places ∧ stF.placeCtr = st.placeCtr ∧
    stF.inserted = st.inserted ∧
    ∃ tl, stF.store.visits = st.store.visits ++ tl := by
  refine foldlM_preserve (processVisit pid)
    (fun x => x.store.places = st.store.places ∧ x.placeCtr = st.placeCtr ∧
      x.inserted = st.inserted ∧ ∃ tl, x.store.visits = st.store.visits ++ tl)
    ?_ vl st stF ⟨rfl, rfl, rfl, [], by simp⟩ h
  intro m v r hm hv
  obtain ⟨t, _, hplaces, hctr, hins, hcase⟩ := processVisit_ok_shape pid m v r hv
  rcases hcase with ⟨_, rfl⟩ | ⟨_, hvis, _⟩
  · exact hm
  · refine ⟨hplaces.trans hm.1, hctr.trans hm.2.1, hins.trans hm.2.2.1, ?_⟩
    obtain ⟨tl, htl⟩ := hm.2.2.2
    exact ⟨tl ++ [⟨m.visitCtr, 0, pid, arc_to_firefox_time t, 1, 0⟩],
      by rw [hvis, htl, List.append_assoc]⟩

/-- After the inner loop every visit of the list has its pair present. -/
theorem foldVisits_pairs (pid : ℤ) (vl : List VisitRecord) :
    ∀ (st stF : ImportState), vl.foldlM (processVisit pid) st = .ok stF →
      ∀ v ∈ vl, ∃ t, jsonToNum v.timestamp = .ok t ∧
        pairMem stF.store.visits pid (arc_to_firefox_time t) := by
  induction vl with
  | nil => intro st stF _ v hv; exact absurd hv (List.not_mem_nil v)
  | cons v vs ih =>
      intro st stF h w hw
      obtain ⟨st1, h1, hrest⟩ := foldlM_cons_ok (processVisit pid) v vs st stF h
      rcases List.mem_cons.mp hw with rfl | hw
      · obtain ⟨t, ht, _, _, _, hcase⟩ := processVisit_ok_shape pid st w st1 h1
        have hp1 : pairMem st1.store.visits pid (arc_to_firefox_time t) := by
          rcases hcase with ⟨hp, rfl⟩ | ⟨_, hvis, _⟩
          · exact hp
          · rw [hvis]
            unfold pairMem visitPairs
            rw [List.map_append]
            exact List.mem_append_right _ (by simp)
        obtain ⟨_, _, _, tl, htl⟩ := foldVisits_frame pid vs st1 stF hrest
        exact ⟨t, ht, htl ▸ pairMem_append_left _ tl pid _ hp1⟩
      · exact ih st1 stF hrest w hw

/-- When every pair of the visit list is already present, the inner loop is a
complete no-op on the state. -/
theorem foldVisits_noop (pid : ℤ) (vl : List VisitRecord) (st : ImportState)
    (hall : ∀ v ∈ vl, ∃ t, jsonToNum v.timestamp = .ok t ∧
      pairMem st.store.visits pid (arc_to_firefox_time t)) :
    vl.foldlM (processVisit pid) st = .ok st := by
  induction vl with
  | nil => rfl
  | cons v vs ih =>
      obtain ⟨t, ht, hp⟩ := hall v (List.mem_cons_self v vs)
      have hstep : processVisit pid st v = .ok st := by
        simp only [processVisit, ht, exceptBind_ok]
        rw [if_pos ((findVisit_isSome_iff _ _ _).mpr hp)]
        rfl
      rw [List.foldlM_cons, hstep, exceptBind_ok]
      exact ih (fun w hw => hall w (List.mem_cons_of_mem v hw))

/-- The inner loop preserves distinctness of the visit pair keys. -/
theorem foldVisits_pairsNodup (pid : ℤ) (vl : List VisitRecord)
    (st stF : ImportState) (h : vl.foldlM (processVisit pid) st = .ok stF)
    (hnd : (visitPairs st.store.visits).Nodup) :
    (visitPairs stF.store.visits).Nodup := by
  refine foldlM_preserve (processVisit pid)
    (fun x => (visitPairs x.store.visits).Nodup) ?_ vl st stF hnd h
  intro m v r hm hv
  obtain ⟨t, _, _, _, _, hcase⟩ := processVisit_ok_shape pid m v r hv
  rcases hcase with ⟨_, rfl⟩ | ⟨hp, hvis, _⟩
  · exact hm
  · rw [hvis]
    unfold visitPairs
    rw [List.map_append, List.nodup_append]
    refine ⟨hm, by simp, ?_⟩
    intro x hx hx2
    simp only [List.map_cons, List.map_nil, List.mem_singleton] at hx2
    subst hx2
    exact hp hx

/-- A successful outer-loop step decomposes into: the latest-record and
timestamp computations succeed, then either the URL is found (optional
in-place update, then the visit loop under the existing id) or it is absent
(insert one fresh row under the current counter, then the visit loop under
that id); finally the processed count goes up by one. -/
theorem processUrl_ok_shape (hf : String → ℤ) (now : ℤ) (st : ImportState)
    (u : String) (vl : List VisitRecord) (stF : ImportState)
    (h : processUrl hf now st (u, vl) = .ok stF) :
    ∃ latest lt st2, latestVisit vl = .ok latest ∧
      jsonToNum latest.timestamp = .ok lt ∧
      stF = ImportState.mk st2.store st2.placeCtr st2.visitCtr
        (st2.inserted + 1) st2.visitsAdded ∧
      ((∃ ex, st.store.places.find? (fun p => p.url == u) = some ex ∧
          vl.foldlM (processVisit ex.id)
            (if arc_to_firefox_time lt > ex.last_visit_date.getD 0 then
              ImportState.mk
                (Store.mk
                  (st.store.places.map
                    (updPlace ex.id latest.title (arc_to_firefox_time lt)
                      (vl.length : ℤ)
                      (calculate_frecency now (vl.length : ℤ)
                        (arc_to_firefox_time lt))))
                  st.store.visits)
                st.placeCtr st.visitCtr st.inserted st.visitsAdded
             else st) = .ok st2) ∨
       (st.store.places.find? (fun p => p.url == u) = none ∧
          vl.foldlM (processVisit st.placeCtr)
            (ImportState.mk
              (Store.mk
                (st.store.places ++
                  [⟨st.placeCtr, u, latest.title, revHost u, (vl.length : ℤ),
                    0, 1,
                    calculate_frecency now (vl.length : ℤ)
                      (arc_to_firefox_time lt),
                    some (arc_to_firefox_time lt),
                    "arc_" ++ toString st.placeCtr, 0,
                    calculate_url_hash hf u⟩])
                st.store.visits)
              (st.placeCtr + 1) st.visitCtr st.inserted st.visitsAdded)
            = .ok st2)) := by
  simp only [processUrl] at h
  cases hl : latestVisit vl with
  | error e => simp only [hl, exceptBind_error] at h; exact Except.noConfusion h
  | ok latest =>
      simp only [hl, exceptBind_ok] at h
      cases hn : jsonToNum latest.timestamp with
      | error e => simp only [hn, exceptBind_error] at h; exact Except.noConfusion h
      | ok lt =>
          simp only [hn, exceptBind_ok] at h
          cases hfind : st.store.places.find? (fun p => p.url == u) with
          | some ex =>
              simp only [hfind] at h
              cases hfold : vl.foldlM (processVisit ex.id)
                  (if arc_to_firefox_time lt > ex.last_visit_date.getD 0 then
                    ImportState.mk
                      (Store.mk
                        (st.store.places.map
                          (updPlace ex.id latest.title (arc_to_firefox_time lt)
                            (vl.length : ℤ)
                            (calculate_frecency now (vl.length : ℤ)
                              (arc_to_firefox_time lt))))
                        st.store.visits)
                      st.placeCtr st.visitCtr st.inserted st.visitsAdded
                   else st) with
              | error e =>
                  simp only [hfold, exceptBind_error] at h
                  exact Except.noConfusion h
              | ok st2 =>
                  simp only [hfold, exceptBind_ok] at h
                  exact ⟨latest, lt, st2, rfl, hn, (Except.ok.inj h).symm,
                    Or.inl ⟨ex, rfl, hfold⟩⟩
          | none =>
              simp only [hfind] at h
              cases hfold : vl.foldlM (processVisit st.placeCtr)
                  (ImportState.mk
                    (Store.mk
                      (st.store.places ++
                        [⟨st.placeCtr, u, latest.title, revHost u,
                          (vl.length : ℤ), 0, 1,
                          calculate_frecency now (vl.length : ℤ)
                            (arc_to_firefox_time lt),
                          some (arc_to_firefox_time lt),
                          "arc_" ++ toString st.placeCtr, 0,
                          calculate_url_hash hf u⟩])
                      st.store.visits)
                    (st.placeCtr + 1) st.visitCtr st.inserted st.visitsAdded) with
              | error e =>
                  simp only [hfold, exceptBind_error] at h
                  exact Except.noConfusion h
              | ok st2 =>
                  simp only [hfold, exceptBind_ok] at h
                  exact ⟨latest, lt, st2, rfl, hn, (Except.ok.inj h).symm,
                    Or.inr ⟨rfl, hfold⟩⟩

/-- One URL step preserves any resolved place id, only appends to the visit
table, and never decreases the place counter. -/
theorem processUrl_persist (hf : String → ℤ) (now : ℤ) (st : ImportState)
    (u : String) (vl : List VisitRecord) (stF : ImportState)
    (h : processUrl hf now st (u, vl) = .ok stF) :
    (∀ u2 pid, pidOf st.store.places u2 = some pid →
      pidOf stF.store.places u2 = some pid) ∧
    (∃ tl, stF.store.visits = st.store.visits ++ tl) ∧
    st.placeCtr ≤ stF.placeCtr := by
  obtain ⟨latest, lt, st2, hl, hn, hstF, hcase⟩ :=
    processUrl_ok_shape hf now st u vl stF h
  subst hstF
  rcases hcase with ⟨ex, hfind, hfold⟩ | ⟨hfind, hfold⟩
  · obtain ⟨hplaces, hctr, _, tl, hvis⟩ := foldVisits_frame _ _ _ _ hfold
    by_cases hupd : arc_to_firefox_time lt > ex.last_visit_date.getD 0
    · rw [if_pos hupd] at hplaces hctr hvis
      refine ⟨fun u2 pid hpid => ?_, ⟨tl, by simpa using hvis⟩, by simp [hctr]⟩
      show pidOf st2.store.places u2 = some pid
      rw [hplaces]
      simpa [pidOf_map_updPlace] using hpid
    · rw [if_neg hupd] at hplaces hctr hvis
      exact ⟨fun u2 pid hpid => by
          show pidOf st2.store.places u2 = some pid
          rw [hplaces]; exact hpid,
        ⟨tl, hvis⟩, by simp [hctr]⟩
  · obtain ⟨hplaces, hctr, _, tl, hvis⟩ := foldVisits_frame _ _ _ _ hfold
    refine ⟨fun u2 pid hpid => ?_, ⟨tl, by simpa using hvis⟩, ?_⟩
    · show pidOf st2.store.places u2 = some pid
      rw [hplaces]
      exact pidOf_append_some _ _ _ _ hpid
    · show st.placeCtr ≤ st2.placeCtr
      rw [hctr]
      simp

/-- After one URL step the processed entry is fully reflected in the store:
its URL resolves to a place id and every visit of its list has its pair in
the visit table. -/
theorem processUrl_establish (hf : String → ℤ) (now : ℤ) (st : ImportState)
    (u : String) (vl : List VisitRecord) (stF : ImportState)
    (h : processUrl hf now st (u, vl) = .ok stF) :
    ∃ pid, pidOf stF.store.places u = some pid ∧
      (∃ latest lt, latestVisit vl = .ok latest ∧
        jsonToNum latest.timestamp = .ok lt) ∧
      ∀ v ∈ vl, ∃ t, jsonToNum v.timestamp = .ok t ∧
        pairMem stF.store.visits pid (arc_to_firefox_time t) := by
  obtain ⟨latest, lt, st2, hl, hn, hstF, hcase⟩ :=
    processUrl_ok_shape hf now st u vl stF h
  subst hstF
  rcases hcase with ⟨ex, hfind, hfold⟩ | ⟨hfind, hfold⟩
  · obtain ⟨hplaces, _, _, _, _⟩ := foldVisits_frame _ _ _ _ hfold
    refine ⟨ex.id, ?_, ⟨latest, lt, hl, hn⟩, ?_⟩
    · show pidOf st2.store.places u = some ex.id
      rw [hplaces]
      by_cases hupd : arc_to_firefox_time lt > ex.last_visit_date.getD 0
      · rw [if_pos hupd]
        show pidOf (st.store.places.map (updPlace ex.id latest.title
            (arc_to_firefox_time lt) (vl.length : ℤ)
            (calculate_frecency now (vl.length : ℤ)
              (arc_to_firefox_time lt)))) u = some ex.id
        rw [pidOf_map_updPlace]
        unfold pidOf
        rw [hfind]
        rfl
      · rw [if_neg hupd]
        unfold pidOf
        rw [hfind]
        rfl
    · intro v hv
      exact foldVisits_pairs ex.id vl _ st2 hfold v hv
  · refine ⟨st.placeCtr, ?_, ⟨latest, lt, hl, hn⟩, ?_⟩
    · obtain ⟨hplaces, _, _, _, _⟩ := foldVisits_frame _ _ _ _ hfold
      show pidOf st2.store.places u = some st.placeCtr
      rw [hplaces]
      show pidOf (st.store.places ++ [_]) u = some st.placeCtr
      rw [pidOf_append_none _ _ _ (by unfold pidOf; rw [hfind]; rfl)]
      unfold pidOf
      simp [List.find?]
    · intro v hv
      exact foldVisits_pairs st.placeCtr vl _ st2 hfold v hv

/-- One URL step preserves distinctness of the visit pair keys. -/
theorem processUrl_pairsNodup (hf : String → ℤ) (now : ℤ) (st : ImportState)
    (u : String) (vl : List VisitRecord) (stF : ImportState)
    (h : processUrl hf now st (u, vl) = .ok stF)
    (hnd : (visitPairs st.store.visits).Nodup) :
    (visitPairs stF.store.visits).Nodup := by
  obtain ⟨latest, lt, st2, hl, hn, hstF, hcase⟩ :=
    processUrl_ok_shape hf now st u vl stF h
  subst hstF
  rcases hcase with ⟨ex, hfind, hfold⟩ | ⟨hfind, hfold⟩
  · show (visitPairs st2.store.visits).Nodup
    refine foldVisits_pairsNodup _ _ _ _ hfold ?_
    by_cases hupd : arc_to_firefox_time lt > ex.last_visit_date.getD 0
    · rw [if_pos hupd]; exact hnd
    · rw [if_neg hupd]; exact hnd
  · show (visitPairs st2.store.visits).Nodup
    exact foldVisits_pairsNodup _ _ _ _ hfold hnd

/-- When the processed entry is already fully reflected in the store, the URL
step succeeds without touching the visit table. -/
theorem processUrl_noop (hf : String → ℤ) (now : ℤ) (st : ImportState)
    (u : String) (vl : List VisitRecord) (pid : ℤ)
    (hpid : pidOf st.store.places u = some pid)
    (latest : VisitRecord) (lt : ℚ)
    (hl : latestVisit vl = .ok latest) (hn : jsonToNum latest.timestamp = .ok lt)
    (hpairs : ∀ v ∈ vl, ∃ t, jsonToNum v.timestamp = .ok t ∧
      pairMem st.store.visits pid (arc_to_firefox_time t)) :
    ∃ stF, processUrl hf now st (u, vl) = .ok stF ∧
      stF.store.visits = st.store.visits ∧
      (∀ u2 pid2, pidOf st.store.places u2 = some pid2 →
        pidOf stF.store.places u2 = some pid2) := by
  obtain ⟨ex, hfind, hexid⟩ : ∃ ex,
      st.store.places.find? (fun p => p.url == u) = some ex ∧ ex.id = pid := by
    unfold pidOf at hpid
    cases hfind : st.store.places.find? (fun p => p.url == u) with
    | none => rw [hfind] at hpid; exact absurd hpid (by simp)
    | some ex =>
        rw [hfind] at hpid
        exact ⟨ex, rfl, by simpa using hpid⟩
  by_cases hupd : arc_to_firefox_time lt > ex.last_visit_date.getD 0
  · refine ⟨ImportState.mk
      (Store.mk
        (st.store.places.map (updPlace ex.id latest.title
          (arc_to_firefox_time lt) (vl.length : ℤ)
          (calculate_frecency now (vl.length : ℤ) (arc_to_firefox_time lt))))
        st.store.visits)
      st.placeCtr st.visitCtr (st.inserted + 1) st.visitsAdded, ?_, rfl, ?_⟩
    · simp only [processUrl, hl, exceptBind_ok, hn, hfind]
      rw [if_pos hupd]
      rw [foldVisits_noop ex.id vl _ (by
        intro v hv
        obtain ⟨t, ht, hp⟩ := hpairs v hv
        exact ⟨t, ht, hexid ▸ hp⟩), exceptBind_ok]
      rfl
    · intro u2 pid2 hpid2
      simpa [pidOf_map_updPlace] using hpid2
  · refine ⟨ImportState.mk st.store st.placeCtr st.visitCtr
      (st.inserted + 1) st.visitsAdded, ?_, rfl, fun u2 pid2 hpid2 => hpid2⟩
    simp only [processUrl, hl, exceptBind_ok, hn, hfind]
    rw [if_neg hupd]
    rw [foldVisits_noop ex.id vl st (by
      intro v hv
      obtain ⟨t, ht, hp⟩ := hpairs v hv
      exact ⟨t, ht, hexid ▸ hp⟩), exceptBind_ok]
    rfl

/-- The URL fold preserves resolved place ids and only appends visits. -/
theorem foldUrls_persist (hf : String → ℤ) (now : ℤ) (visits : VisitsByUrl)
    (st stF : ImportState)
    (h : visits.foldlM (processUrl hf now) st = .ok stF) :
    (∀ u pid, pidOf st.store.places u = some pid →
      pidOf stF.store.places u = some pid) ∧
    ∃ tl, stF.store.visits = st.store.visits ++ tl := by
  refine foldlM_preserve (processUrl hf now)
    (fun x => (∀ u pid, pidOf st.store.places u = some pid →
        pidOf x.store.places u = some pid) ∧
      ∃ tl, x.store.visits = st.store.visits ++ tl)
    ?_ visits st stF ⟨fun u pid hp => hp, [], by simp⟩ h
  intro m e r hm he
  obtain ⟨u, vl⟩ := e
  obtain ⟨hpid, ⟨tl2, hvis⟩, _⟩ := processUrl_persist hf now m u vl r he
  obtain ⟨tl1, hvis1⟩ := hm.2
  exact ⟨fun u2 pid h2 => hpid u2 pid (hm.1 u2 pid h2),
    tl1 ++ tl2, by rw [hvis, hvis1, List.append_assoc]⟩

/-- After a successful URL fold, the final store absorbs the whole map. -/
theorem foldUrls_absorbed (hf : String → ℤ) (now : ℤ) (visits : VisitsByUrl) :
    ∀ (st stF : ImportState),
      visits.foldlM (processUrl hf now) st = .ok stF →
      Absorbed stF.store visits := by
  induction visits with
  | nil => intro st stF _ e he; exact absurd he (List.not_mem_nil e)
  | cons e rest ih =>
      intro st stF h e2 he2
      obtain ⟨st1, hstep, hrest⟩ := foldlM_cons_ok (processUrl hf now) e rest st stF h
      rcases List.mem_cons.mp he2 with rfl | he2
      · obtain ⟨u, vl⟩ := e2
        obtain ⟨pid, hpid, hok, hpairs⟩ :=
          processUrl_establish hf now st u vl st1 hstep
        obtain ⟨hpers, tl, hvis⟩ := foldUrls_persist hf now rest st1 stF hrest
        refine ⟨pid, hpers u pid hpid, hok, ?_⟩
        intro v hv
        obtain ⟨t, ht, hp⟩ := hpairs v hv
        exact ⟨t, ht, hvis ▸ pairMem_append_left _ tl pid _ hp⟩
      · exact ih st1 stF hrest e2 he2

/-- Running the URL fold against a store that already absorbs the map
succeeds and leaves the visit table unchanged. -/
theorem foldUrls_noop (hf : String → ℤ) (now : ℤ) (visits : VisitsByUrl) :
    ∀ (st : ImportState), Absorbed st.store visits →
      ∃ stF, visits.foldlM (processUrl hf now) st = .ok stF ∧
        stF.store.visits = st.store.visits := by
  induction visits with
  | nil => intro st _; exact ⟨st, rfl, rfl⟩
  | cons e rest ih =>
      intro st habs
      obtain ⟨u, vl⟩ := e
      obtain ⟨pid, hpid, ⟨latest, lt, hl, hn⟩, hpairs⟩ :=
        habs (u, vl) (List.mem_cons_self _ _)
      obtain ⟨st1, hstep, hvis1, hpers⟩ :=
        processUrl_noop hf now st u vl pid hpid latest lt hl hn hpairs
      have habs1 : Absorbed st1.store rest := by
        intro e2 he2
        obtain ⟨pid2, hpid2, hok2, hpairs2⟩ :=
          habs e2 (List.mem_cons_of_mem _ he2)
        refine ⟨pid2, hpers e2.1 pid2 hpid2, hok2, ?_⟩
        intro v hv
        obtain ⟨t, ht, hp⟩ := hpairs2 v hv
        exact ⟨t, ht, hvis1 ▸ hp⟩
      obtain ⟨stF, hfold, hvisF⟩ := ih st1 habs1
      refine ⟨stF, ?_, by rw [hvisF, hvis1]⟩
      rw [List.foldlM_cons, hstep, exceptBind_ok]
      exact hfold

/-- The URL fold preserves distinctness of the visit pair keys. -/
theorem foldUrls_pairsNodup (hf : String → ℤ) (now : ℤ) (visits : VisitsByUrl)
    (st stF : ImportState)
    (h : visits.foldlM (processUrl hf now) st = .ok stF)
    (hnd : (visitPairs st.store.visits).Nodup) :
    (visitPairs stF.store.visits).Nodup := by
  refine foldlM_preserve (processUrl hf now)
    (fun x => (visitPairs x.store.visits).Nodup) ?_ visits st stF hnd h
  intro m e r hm he
  obtain ⟨u, vl⟩ := e
  exact processUrl_pairsNodup hf now m u vl r he hm

/-- A successful import is a successful URL fold from the seeded state. -/
theorem import_ok_fold (hf : String → ℤ) (now : ℤ) (visits : VisitsByUrl)
    (s : Store) (res : ℕ × ℕ) (sNew : Store)
    (h : import_to_firefox hf now visits s = .ok (res, sNew)) :
    ∃ stF, visits.foldlM (processUrl hf now) (initState s) = .ok stF ∧
      sNew = stF.store := by
  simp only [import_to_firefox] at h
  cases hfold : visits.foldlM (processUrl hf now) (initState s) with
  | error e =>
      rw [show visits.foldlM (processUrl hf now) (initState s) =
        visits.foldlM (processUrl hf now)
          (ImportState.mk s (maxIdOr0 (s.places.map (fun p => p.id)) + 1)
            (maxIdOr0 (s.visits.map (fun w => w.id)) + 1) 0 0) from rfl] at hfold
      rw [hfold, exceptBind_error] at h
      exact Except.noConfusion h
  | ok stF =>
      rw [show visits.foldlM (processUrl hf now) (initState s) =
        visits.foldlM (processUrl hf now)
          (ImportState.mk s (maxIdOr0 (s.places.map (fun p => p.id)) + 1)
            (maxIdOr0 (s.visits.map (fun w => w.id)) + 1) 0 0) from rfl] at hfold
      rw [hfold, exceptBind_ok] at h
      exact ⟨stF, rfl, congrArg Prod.snd (Except.ok.inj h).symm⟩

/-- Conversely, a successful URL fold gives a successful import. -/
theorem import_of_fold (hf : String → ℤ) (now : ℤ) (visits : VisitsByUrl)
    (s : Store) (stF : ImportState)
    (h : visits.foldlM (processUrl hf now) (initState s) = .ok stF) :
    import_to_firefox hf now visits s =
      .ok ((stF.inserted, stF.visitsAdded), stF.store) := by
  simp only [import_to_firefox]
  rw [show visits.foldlM (processUrl hf now)
      (ImportState.mk s (maxIdOr0 (s.places.map (fun p => p.id)) + 1)
        (maxIdOr0 (s.visits.map (fun w => w.id)) + 1) 0 0) =
    visits.foldlM (processUrl hf now) (initState s) from rfl]
  rw [h, exceptBind_ok]
  rfl

/-- C2: running the import twice against the same archive and starting store
(with the same pinned wall clock) leaves the visit-row count unchanged after
the second run, and the import preserves the invariant that no two visit rows
share a `(place_id, visit_date)` pair. -/
theorem C2_rerun_no_duplicate_visits (hf : String → ℤ) (now : ℤ)
    (visits : VisitsByUrl) (s : Store) :
    (runImport hf now visits (runImport hf now visits s)).visits.length =
      (runImport hf now visits s).visits.length ∧
    ((visitPairs s.visits).Nodup →
      (visitPairs (runImport hf now visits s).visits).Nodup) := by
  cases himp : import_to_firefox hf now visits s with
  | error e =>
      have hrun : runImport hf now visits s = s := by
        unfold runImport; rw [himp]
      rw [hrun, hrun]
      exact ⟨rfl, fun hnd => hnd⟩
  | ok p =>
      obtain ⟨res, s1⟩ := p
      have hrun1 : runImport hf now visits s = s1 := by
        unfold runImport; rw [himp]
      rw [hrun1]
      obtain ⟨stF, hfold, hs1⟩ := import_ok_fold hf now visits s res s1 himp
      constructor
      · have habs : Absorbed s1 visits := by
          rw [hs1]
          exact foldUrls_absorbed hf now visits (initState s) stF hfold
        obtain ⟨stF2, hfold2, hvis2⟩ :=
          foldUrls_noop hf now visits (initState s1) habs
        have himp2 : import_to_firefox hf now visits s1 =
            .ok ((stF2.inserted, stF2.visitsAdded), stF2.store) :=
          import_of_fold hf now visits s1 stF2 hfold2
        unfold runImport
        rw [himp2]
        show stF2.store.visits.length = s1.visits.length
        rw [hvis2]
        rfl
      · intro hnd
        rw [hs1]
        exact foldUrls_pairsNodup hf now visits (initState s) stF hfold hnd

/-- Witness for C2 on a one-entry map and the empty store. -/
theorem C2_rerun_no_duplicate_visits_witness :
    (visitPairs emptyStore.visits).Nodup ∧
    (runImport hash0 0 [("u", [⟨.str "T", .null, .num 100⟩])]
        (runImport hash0 0 [("u", [⟨.str "T", .null, .num 100⟩])]
          emptyStore)).visits.length =
      (runImport hash0 0 [("u", [⟨.str "T", .null, .num 100⟩])]
        emptyStore).visits.length ∧
    (visitPairs (runImport hash0 0 [("u", [⟨.str "T", .null, .num 100⟩])]
      emptyStore).visits).Nodup :=
  ⟨List.nodup_nil,
    (C2_rerun_no_duplicate_visits hash0 0
      [("u", [⟨.str "T", .null, .num 100⟩])] emptyStore).1,
    (C2_rerun_no_duplicate_visits hash0 0
      [("u", [⟨.str "T", .null, .num 100⟩])] emptyStore).2 List.nodup_nil⟩

/-- Invariant preservation along an `Except`-valued left fold, where the step
property is only needed for members of the folded list. -/
theorem foldlM_preserve_mem {α σ : Type} (f : σ → α → Except String σ)
    (P : σ → Prop) :
    ∀ (xs : List α), (∀ m x r, x ∈ xs → P m → f m x = .ok r → P r) →
      ∀ m r, P m → xs.foldlM f m = .ok r → P r := by
  intro xs
  induction xs with
  | nil => intro _ m r hm h; rw [foldlM_nil_ok f m r h]; exact hm
  | cons x xs ih =>
      intro hstep m r hm h
      obtain ⟨m1, hf, hrest⟩ := foldlM_cons_ok f x xs m r h
      exact ih (fun m2 y r2 hy => hstep m2 y r2 (List.mem_cons_of_mem x hy))
        m1 r (hstep m x m1 (List.mem_cons_self x xs) hm hf) hrest

theorem countUrl_eq_zero_of_pidOf_none (places : List PlaceRow) (u : String)
    (h : pidOf places u = none) : countUrl places u = 0 := by
  unfold pidOf at h
  cases hf : places.find? (fun p => p.url == u) with
  | some row => rw [hf] at h; exact absurd h (by simp)
  | none =>
      rw [List.find?_eq_none] at hf
      unfold countUrl
      rw [List.countP_eq_zero]
      exact hf

/-- A step for a different URL leaves the row count and resolved id of `u`
untouched and never decreases the place counter. -/
theorem processUrl_other_frame (hf : String → ℤ) (now : ℤ) (st : ImportState)
    (w : String) (wl : List VisitRecord) (stF : ImportState) (u : String)
    (hne : w ≠ u) (h : processUrl hf now st (w, wl) = .ok stF) :
    countUrl stF.store.places u = countUrl st.store.places u ∧
    pidOf stF.store.places u = pidOf st.store.places u ∧
    st.placeCtr ≤ stF.placeCtr := by
  obtain ⟨latest, lt, st2, hl, hn, hstF, hcase⟩ :=
    processUrl_ok_shape hf now st w wl stF h
  subst hstF
  rcases hcase with ⟨ex, hfind, hfold⟩ | ⟨hfind, hfold⟩
  · obtain ⟨hplaces, hctr, _, _, _⟩ := foldVisits_frame _ _ _ _ hfold
    by_cases hupd : arc_to_firefox_time lt > ex.last_visit_date.getD 0
    · rw [if_pos hupd] at hplaces hctr
      refine ⟨?_, ?_, ?_⟩
      · show countUrl st2.store.places u = _
        rw [hplaces]
        exact countUrl_map_updPlace _ _ _ _ _ _ _
      · show pidOf st2.store.places u = _
        rw [hplaces]
        exact pidOf_map_updPlace _ _ _ _ _ _ _
      · show st.placeCtr ≤ st2.placeCtr
        rw [hctr]
    · rw [if_neg hupd] at hplaces hctr
      exact ⟨by show countUrl st2.store.places u = _; rw [hplaces],
        by show pidOf st2.store.places u = _; rw [hplaces],
        by show st.placeCtr ≤ st2.placeCtr; rw [hctr]⟩
  · obtain ⟨hplaces, hctr, _, _, _⟩ := foldVisits_frame _ _ _ _ hfold
    have hbe : (w == u) = false := beq_eq_false_iff_ne.mpr hne
    refine ⟨?_, ?_, ?_⟩
    · show countUrl st2.store.places u = _
      rw [hplaces]
      show countUrl (st.store.places ++ [_]) u = _
      rw [countUrl_append]
      have : countUrl [(⟨st.placeCtr, w, latest.title, revHost w, (wl.length : ℤ),
          0, 1, calculate_frecency now (wl.length : ℤ) (arc_to_firefox_time lt),
          some (arc_to_firefox_time lt), "arc_" ++ toString st.placeCtr, 0,
          calculate_url_hash hf w⟩ : PlaceRow)] u = 0 := by
        unfold countUrl
        simp [List.countP_cons, hne]
      rw [this]
      omega
    · show pidOf st2.store.places u = _
      rw [hplaces]
      cases hpid : pidOf st.store.places u with
      | some pid => exact pidOf_append_some _ _ _ _ hpid
      | none =>
          rw [pidOf_append_none _ _ _ hpid]
          unfold pidOf
          simp [List.find?, hbe]
    · show st.placeCtr ≤ st2.placeCtr
      rw [hctr]
      simp

/-- The step for a URL's own entry: an absent URL gains exactly one row whose
id is the current counter; a present URL keeps its row count and id. -/
theorem processUrl_own (hf : String → ℤ) (now : ℤ) (st : ImportState)
    (u : String) (vl : List VisitRecord) (stF : ImportState)
    (h : processUrl hf now st (u, vl) = .ok stF) :
    (pidOf st.store.places u = none →
      countUrl stF.store.places u = countUrl st.store.places u + 1 ∧
      pidOf stF.store.places u = some st.placeCtr) ∧
    (∀ pid, pidOf st.store.places u = some pid →
      countUrl stF.store.places u = countUrl st.store.places u ∧
      pidOf stF.store.places u = some pid) := by
  obtain ⟨latest, lt, st2, hl, hn, hstF, hcase⟩ :=
    processUrl_ok_shape hf now st u vl stF h
  subst hstF
  rcases hcase with ⟨ex, hfind, hfold⟩ | ⟨hfind, hfold⟩
  · obtain ⟨hplaces, _, _, _, _⟩ := foldVisits_frame _ _ _ _ hfold
    constructor
    · intro hnone
      unfold pidOf at hnone
      rw [hfind] at hnone
      exact absurd hnone (by simp)
    · intro pid hpid
      by_cases hupd : arc_to_firefox_time lt > ex.last_visit_date.getD 0
      · rw [if_pos hupd] at hplaces
        constructor
        · show countUrl st2.store.places u = _
          rw [hplaces]
          exact countUrl_map_updPlace _ _ _ _ _ _ _
        · show pidOf st2.store.places u = some pid
          rw [hplaces]
          show pidOf (List.map _ st.store.places) u = some pid
          rw [pidOf_map_updPlace]
          exact hpid
      · rw [if_neg hupd] at hplaces
        exact ⟨by show countUrl st2.store.places u = _; rw [hplaces],
          by show pidOf st2.store.places u = some pid; rw [hplaces]; exact hpid⟩
  · obtain ⟨hplaces, _, _, _, _⟩ := foldVisits_frame _ _ _ _ hfold
    constructor
    · intro hnone
      constructor
      · show countUrl st2.store.places u = _
        rw [hplaces]
        show countUrl (st.store.places ++ [_]) u = _
        rw [countUrl_append]
        congr 1
        unfold countUrl
        simp [List.countP_cons]
      · show pidOf st2.store.places u = some st.placeCtr
        rw [hplaces]
        show pidOf (st.store.places ++ [_]) u = some st.placeCtr
        rw [pidOf_append_none _ _ _ hnone]
        unfold pidOf
        simp [List.find?]
    · intro pid hpid
      unfold pidOf at hpid
      rw [hfind] at hpid
      exact absurd hpid (by simp)

/-- C4: importing a URL absent from the store creates exactly one new
`PlaceRow` whose id is strictly greater than the pre-run maximum place id
(ids come from a counter seeded at `max + 1`, `0` for an empty store);
importing a URL already present keeps its row count and reuses the existing
first-match id, never allocating a new one. -/
theorem C4_identifier_allocation (hf : String → ℤ) (now : ℤ)
    (visits : VisitsByUrl) (s : Store) (res : ℕ × ℕ) (sNew : Store)
    (u : String) (vl : List VisitRecord)
    (hkeys : (visits.map Prod.fst).Nodup)
    (himp : import_to_firefox hf now visits s = .ok (res, sNew))
    (hmem : (u, vl) ∈ visits) :
    (pidOf s.places u = none →
      countUrl sNew.places u = 1 ∧
      ∃ pid, pidOf sNew.places u = some pid ∧ maxPlaceId s < pid) ∧
    (∀ pid, pidOf s.places u = some pid →
      countUrl sNew.places u = countUrl s.places u ∧
      pidOf sNew.places u = some pid) := by
  obtain ⟨stF, hfold, hsNew⟩ := import_ok_fold hf now visits s res sNew himp
  subst hsNew
  obtain ⟨l1, l2, rfl⟩ := List.append_of_mem hmem
  rw [List.map_append, List.map_cons, List.nodup_append] at hkeys
  obtain ⟨hnd1, hnd2, hdisj⟩ := hkeys
  have hul1 : u ∉ l1.map Prod.fst := fun hu => hdisj hu (List.mem_cons_self _ _)
  have hul2 : u ∉ l2.map Prod.fst := (List.nodup_cons.mp hnd2).1
  rw [List.foldlM_append] at hfold
  cases h1 : l1.foldlM (processUrl hf now) (initState s) with
  | error e => rw [h1, exceptBind_error] at hfold; exact Except.noConfusion hfold
  | ok st1 =>
      rw [h1, exceptBind_ok] at hfold
      obtain ⟨st2, hstep, h2⟩ := foldlM_cons_ok _ _ _ _ _ hfold
      have hP1 : countUrl st1.store.places u = countUrl s.places u ∧
          pidOf st1.store.places u = pidOf s.places u ∧
          maxPlaceId s < st1.placeCtr := by
        refine foldlM_preserve_mem (processUrl hf now)
          (fun x => countUrl x.store.places u = countUrl s.places u ∧
            pidOf x.store.places u = pidOf s.places u ∧
            maxPlaceId s < x.placeCtr) l1 ?_ (initState s) st1
          ⟨rfl, rfl, by
            show maxPlaceId s < maxIdOr0 (s.places.map (fun p => p.id)) + 1
            unfold maxPlaceId
            omega⟩ h1
        intro m e r he hm hr
        obtain ⟨w, wl⟩ := e
        have hwne : w ≠ u := fun heq =>
          hul1 (heq ▸ List.mem_map.mpr ⟨(w, wl), he, rfl⟩)
        obtain ⟨hc, hp, hctr⟩ := processUrl_other_frame hf now m w wl r u hwne hr
        exact ⟨hc.trans hm.1, hp.trans hm.2.1, lt_of_lt_of_le hm.2.2 hctr⟩
      obtain ⟨hown_none, hown_some⟩ := processUrl_own hf now st1 u vl st2 hstep
      have hP3 : ∀ (c : ℕ) (pd : Option ℤ),
          countUrl st2.store.places u = c → pidOf st2.store.places u = pd →
          countUrl stF.store.places u = c ∧ pidOf stF.store.places u = pd := by
        intro c pd hc hp
        refine foldlM_preserve_mem (processUrl hf now)
          (fun x => countUrl x.store.places u = c ∧ pidOf x.store.places u = pd)
          l2 ?_ st2 stF ⟨hc, hp⟩ h2
        intro m e r he hm hr
        obtain ⟨w, wl⟩ := e
        have hwne : w ≠ u := fun heq =>
          hul2 (heq ▸ List.mem_map.mpr ⟨(w, wl), he, rfl⟩)
        obtain ⟨hcf, hpf, _⟩ := processUrl_other_frame hf now m w wl r u hwne hr
        exact ⟨hcf.trans hm.1, hpf.trans hm.2⟩
      constructor
      · intro hnone
        have hnone1 : pidOf st1.store.places u = none := hP1.2.1.trans hnone
        obtain ⟨hc2, hp2⟩ := hown_none hnone1
        have hc1 : countUrl st1.store.places u = 0 := by
          rw [hP1.1]
          exact countUrl_eq_zero_of_pidOf_none s.places u hnone
        obtain ⟨hcF, hpF⟩ := hP3 1 (some st1.placeCtr)
          (by rw [hc2, hc1]) hp2
        exact ⟨hcF, ⟨st1.placeCtr, hpF, hP1.2.2⟩⟩
      · intro pid hpid
        have hpid1 : pidOf st1.store.places u = some pid := hP1.2.1.trans hpid
        obtain ⟨hc2, hp2⟩ := hown_some pid hpid1
        exact hP3 (countUrl s.places u) (some pid) (hc2.trans hP1.1) hp2

/-- Witness for C4: importing the absent URL "b" into the empty store yields
exactly one row for it, with a fresh id above the (empty) pre-run maximum. -/
theorem C4_identifier_allocation_witness :
    ([("b", [(⟨.str "U", .null, .num 50⟩ : VisitRecord)])].map Prod.fst).Nodup ∧
    pidOf emptyStore.places "b" = none ∧
    countUrl (Store.mk
      [⟨1, "b", .str "U", "", 1, 0, 1, 1100, some 978307250000000, "arc_1", 0, 0⟩]
      [⟨1, 0, 1, 978307250000000, 1, 0⟩]).places "b" = 1 ∧
    ∃ pid, pidOf (Store.mk
      [⟨1, "b", .str "U", "", 1, 0, 1, 1100, some 978307250000000, "arc_1", 0, 0⟩]
      [⟨1, 0, 1, 978307250000000, 1, 0⟩]).places "b" = some pid ∧
      maxPlaceId emptyStore < pid := by
  have himp : import_to_firefox hash0 0
      [("b", [⟨.str "U", .null, .num 50⟩])] emptyStore =
      .ok ((1, 1), Store.mk
        [⟨1, "b", .str "U", "", 1, 0, 1, 1100, some 978307250000000, "arc_1", 0, 0⟩]
        [⟨1, 0, 1, 978307250000000, 1, 0⟩]) := by
    with_unfolding_all rfl
  have h4 := C4_identifier_allocation hash0 0
    [("b", [⟨.str "U", .null, .num 50⟩])] emptyStore _ _ "b"
    [⟨.str "U", .null, .num 50⟩] (by simp) himp (by simp)
  exact ⟨by simp, rfl, h4.1 rfl⟩

theorem mem_of_getElem_opt {α : Type} (l : List α) (i : ℕ) (a : α)
    (h : l[i]? = some a) : a ∈ l := by
  rw [List.getElem?_eq_some] at h
  obtain ⟨hlt, rfl⟩ := h
  exact List.getElem_mem hlt

/-- If position `i` holds `r`, `r` satisfies the predicate and everything
before `i` fails it, then `find?` returns `r`. -/
theorem find?_of_getElem_opt {α : Type} (p : α → Bool) :
    ∀ (l : List α) (i : ℕ) (r : α), l[i]? = some r → p r = true →
      (∀ j < i, ∀ x, l[j]? = some x → p x = false) → l.find? p = some r := by
  intro l
  induction l with
  | nil => intro i r h; simp at h
  | cons a t ih =>
      intro i r h hp hprev
      cases i with
      | zero =>
          rw [List.getElem?_cons_zero] at h
          obtain rfl := Option.some.inj h
          exact List.find?_cons_of_pos t hp
      | succ i =>
          have h0 : p a = false :=
            hprev 0 (Nat.succ_pos i) a List.getElem?_cons_zero
          rw [List.find?_cons_of_neg t (by simp [h0])]
          rw [List.getElem?_cons_succ] at h
          refine ih i r h hp ?_
          intro j hj x hx
          exact hprev (j + 1) (Nat.succ_lt_succ hj) x
            (by rw [List.getElem?_cons_succ]; exact hx)

/-- A step for a different URL preserves the C3 frame invariant. -/
theorem processUrl_posInv_other (hf : String → ℤ) (now : ℤ) (st : ImportState)
    (w : String) (wl : List VisitRecord) (stF : ImportState) (u : String)
    (r : PlaceRow) (i : ℕ) (hru : r.url = u) (hwne : w ≠ u)
    (hinv : posInv u r i st) (h : processUrl hf now st (w, wl) = .ok stF) :
    posInv u r i stF := by
  obtain ⟨hget, hprev, hnd, hdom⟩ := hinv
  obtain ⟨latest, lt, st2, hl, hn, hstF, hcase⟩ :=
    processUrl_ok_shape hf now st w wl stF h
  subst hstF
  rcases hcase with ⟨ex, hfind, hfold⟩ | ⟨hfind, hfold⟩
  · obtain ⟨hplaces, hctr, _, _, _⟩ := foldVisits_frame _ _ _ _ hfold
    by_cases hupd : arc_to_firefox_time lt > ex.last_visit_date.getD 0
    · rw [if_pos hupd] at hplaces hctr
      have hexmem : ex ∈ st.store.places := List.mem_of_find?_eq_some hfind
      have hexurl : ex.url = w := by
        have := List.find?_some hfind
        simpa using this
      have hrmem : r ∈ st.store.places := mem_of_getElem_opt _ i r hget
      have hidne : r.id ≠ ex.id := by
        intro hid
        have : r = ex := List.inj_on_of_nodup_map hnd hrmem hexmem hid
        exact hwne (by rw [← hexurl, ← this, hru])
      have hplaces2 : st2.store.places = st.store.places.map
          (updPlace ex.id latest.title (arc_to_firefox_time lt)
            (wl.length : ℤ) (calculate_frecency now (wl.length : ℤ)
              (arc_to_firefox_time lt))) := hplaces
      have hctr2 : st2.placeCtr = st.placeCtr := hctr
      set f := updPlace ex.id latest.title (arc_to_firefox_time lt)
        (wl.length : ℤ) (calculate_frecency now (wl.length : ℤ)
          (arc_to_firefox_time lt)) with hf_def
      have hfr : f r = r := by
        rw [hf_def]
        unfold updPlace
        rw [if_neg hidne]
      refine ⟨?_, ?_, ?_, ?_⟩
      · rw [hplaces2, List.getElem?_map, hget]
        show some (f r) = some r
        rw [hfr]
      · intro j hj p hp
        rw [hplaces2, List.getElem?_map] at hp
        cases hq : st.store.places[j]? with
        | none => rw [hq] at hp; exact absurd hp (by simp)
        | some q =>
            rw [hq] at hp
            have hpq : p = f q := by simpa using hp.symm
            rw [hpq, show (f q).url = q.url from updPlace_url _ _ _ _ _ _ ]
            exact hprev j hj q hq
      · rw [hplaces2, List.map_map]
        have hcomp : ((fun p : PlaceRow => p.id) ∘ f) =
            fun p : PlaceRow => p.id := by
          funext p
          exact updPlace_id _ _ _ _ _ _
        rw [hcomp]
        exact hnd
      · intro p hp
        rw [hplaces2] at hp
        obtain ⟨q, hq, rfl⟩ := List.mem_map.mp hp
        rw [hctr2, show (f q).id = q.id from updPlace_id _ _ _ _ _ _ ]
        exact hdom q hq
    · rw [if_neg hupd] at hplaces hctr
      have hplaces2 : st2.store.places = st.store.places := hplaces
      have hctr2 : st2.placeCtr = st.placeCtr := hctr
      refine ⟨by rw [hplaces2]; exact hget, ?_, by rw [hplaces2]; exact hnd, ?_⟩
      · intro j hj p hp
        rw [hplaces2] at hp
        exact hprev j hj p hp
      · intro p hp
        rw [hplaces2] at hp
        rw [hctr2]
        exact hdom p hp
  · obtain ⟨hplaces, hctr, _, _, _⟩ := foldVisits_frame _ _ _ _ hfold
    have hplaces2 : st2.store.places = st.store.places ++
        [⟨st.placeCtr, w, latest.title, revHost w, (wl.length : ℤ), 0, 1,
          calculate_frecency now (wl.length : ℤ) (arc_to_firefox_time lt),
          some (arc_to_firefox_time lt), "arc_" ++ toString st.placeCtr, 0,
          calculate_url_hash hf w⟩] := hplaces
    have hctr2 : st2.placeCtr = st.placeCtr + 1 := hctr
    have hlt : i < st.store.places.length := by
      rw [List.getElem?_eq_some] at hget
      exact hget.1
    refine ⟨?_, ?_, ?_, ?_⟩
    · rw [hplaces2, List.getElem?_append, if_pos hlt]
      exact hget
    · intro j hj p hp
      rw [hplaces2, List.getElem?_append, if_pos (lt_trans hj hlt)] at hp
      exact hprev j hj p hp
    · rw [hplaces2, List.map_append, List.nodup_append]
      refine ⟨hnd, by simp, ?_⟩
      intro x hx hx2
      simp only [List.map_cons, List.map_nil, List.mem_singleton] at hx2
      obtain ⟨q, hq, rfl⟩ := List.mem_map.mp hx
      exact absurd (hdom q hq) (by rw [hx2]; exact lt_irrefl _)
    · intro p hp
      rw [hplaces2] at hp
      rw [hctr2]
      rcases List.mem_append.mp hp with hp3 | hp3
      · exact lt_trans (hdom p hp3) (by omega)
      · rw [List.mem_singleton.mp hp3]
        show st.placeCtr < st.placeCtr + 1
        omega

/-- The step for the frame row's own URL: when the candidate timestamp is not
strictly newer than the stored one, the update is skipped and the C3 frame
invariant is preserved (the row keeps every field). -/
theorem processUrl_posInv_own (hf : String → ℤ) (now : ℤ) (st : ImportState)
    (u : String) (vl : List VisitRecord) (stF : ImportState)
    (r : PlaceRow) (i : ℕ) (lv : VisitRecord) (c : ℚ)
    (hru : r.url = u) (hinv : posInv u r i st)
    (hl : latestVisit vl = .ok lv) (hn : jsonToNum lv.timestamp = .ok c)
    (hle : arc_to_firefox_time c ≤ r.last_visit_date.getD 0)
    (h : processUrl hf now st (u, vl) = .ok stF) :
    posInv u r i stF := by
  obtain ⟨hget, hprev, hnd, hdom⟩ := hinv
  have hfindr : st.store.places.find? (fun p => p.url == u) = some r := by
    refine find?_of_getElem_opt _ st.store.places i r hget (by simp [hru]) ?_
    intro j hj x hx
    exact beq_eq_false_iff_ne.mpr (hprev j hj x hx)
  obtain ⟨latest, lt, st2, hl2, hn2, hstF, hcase⟩ :=
    processUrl_ok_shape hf now st u vl stF h
  subst hstF
  rcases hcase with ⟨ex, hfind, hfold⟩ | ⟨hfind, hfold⟩
  · have hexr : ex = r := Option.some.inj (hfind.symm.trans hfindr)
    subst hexr
    have hlv : latest = lv := by
      have := hl2.symm.trans hl
      exact Except.ok.inj this
    subst hlv
    have hlt : lt = c := by
      have := hn2.symm.trans hn
      exact Except.ok.inj this
    subst hlt
    rw [if_neg (not_lt.mpr hle)] at hfold
    obtain ⟨hplaces, hctr, _, _, _⟩ := foldVisits_frame _ _ _ _ hfold
    refine ⟨by rw [hplaces]; exact hget, ?_, by rw [hplaces]; exact hnd, ?_⟩
    · intro j hj p hp
      rw [hplaces] at hp
      exact hprev j hj p hp
    · intro p hp
      rw [hplaces] at hp
      rw [hctr]
      exact hdom p hp
  · rw [hfindr] at hfind
    exact Option.noConfusion hfind

/-- C3: for a URL already present in the store (first matched at position
`i`), if the run's candidate timestamp is not strictly greater than the
stored `last_visit_date` (`NULL` read as 0), the whole run leaves that
`PlaceRow` byte-for-byte unchanged at its position — `visit_count` included. -/
theorem C3_no_update_when_not_newer (hf : String → ℤ) (now : ℤ)
    (visits : VisitsByUrl) (s : Store) (u : String) (vl : List VisitRecord)
    (r : PlaceRow) (i : ℕ) (lv : VisitRecord) (c : ℚ)
    (hkeys : (visits.map Prod.fst).Nodup)
    (hids : (s.places.map (fun p => p.id)).Nodup)
    (hmem : (u, vl) ∈ visits)
    (hget : s.places[i]? = some r)
    (hprev : ∀ j < i, ∀ p, s.places[j]? = some p → p.url ≠ u)
    (hru : r.url = u)
    (hl : latestVisit vl = .ok lv)
    (hn : jsonToNum lv.timestamp = .ok c)
    (hle : arc_to_firefox_time c ≤ r.last_visit_date.getD 0) :
    (runImport hf now visits s).places[i]? = some r := by
  cases himp : import_to_firefox hf now visits s with
  | error e =>
      unfold runImport
      rw [himp]
      exact hget
  | ok p =>
      obtain ⟨res, s1⟩ := p
      have hrun : runImport hf now visits s = s1 := by
        unfold runImport; rw [himp]
      rw [hrun]
      obtain ⟨stF, hfold, hs1⟩ := import_ok_fold hf now visits s res s1 himp
      subst hs1
      obtain ⟨l1, l2, rfl⟩ := List.append_of_mem hmem
      rw [List.map_append, List.map_cons, List.nodup_append] at hkeys
      obtain ⟨hnd1, hnd2, hdisj⟩ := hkeys
      have hul1 : u ∉ l1.map Prod.fst :=
        fun hu => hdisj hu (List.mem_cons_self _ _)
      have hul2 : u ∉ l2.map Prod.fst := (List.nodup_cons.mp hnd2).1
      rw [List.foldlM_append] at hfold
      cases h1 : l1.foldlM (processUrl hf now) (initState s) with
      | error e =>
          rw [h1, exceptBind_error] at hfold
          exact Except.noConfusion hfold
      | ok st1 =>
          rw [h1, exceptBind_ok] at hfold
          obtain ⟨st2, hstep, h2⟩ := foldlM_cons_ok _ _ _ _ _ hfold
          have hinv0 : posInv u r i (initState s) := by
            refine ⟨hget, hprev, hids, ?_⟩
            intro p hp
            show p.id < maxIdOr0 (s.places.map (fun q => q.id)) + 1
            have := maxIdOr0_ge (s.places.map (fun q => q.id)) p.id
              (List.mem_map.mpr ⟨p, hp, rfl⟩)
            omega
          have hinv1 : posInv u r i st1 := by
            refine foldlM_preserve_mem (processUrl hf now) (posInv u r i)
              l1 ?_ (initState s) st1 hinv0 h1
            intro m e x he hm hx
            obtain ⟨w, wl⟩ := e
            have hwne : w ≠ u := fun heq =>
              hul1 (heq ▸ List.mem_map.mpr ⟨(w, wl), he, rfl⟩)
            exact processUrl_posInv_other hf now m w wl x u r i hru hwne hm hx
          have hinv2 : posInv u r i st2 :=
            processUrl_posInv_own hf now st1 u vl st2 r i lv c hru hinv1
              hl hn hle hstep
          have hinvF : posInv u r i stF := by
            refine foldlM_preserve_mem (processUrl hf now) (posInv u r i)
              l2 ?_ st2 stF hinv2 h2
            intro m e x he hm hx
            obtain ⟨w, wl⟩ := e
            have hwne : w ≠ u := fun heq =>
              hul2 (heq ▸ List.mem_map.mpr ⟨(w, wl), he, rfl⟩)
            exact processUrl_posInv_other hf now m w wl x u r i hru hwne hm hx
          exact hinvF.1

/-- Witness for C3: re-importing the same URL with an equal (not newer)
timestamp leaves the stored row, including its `visit_count` of 5, exactly
as it was. -/
theorem C3_no_update_when_not_newer_witness :
    ((([("a", [(⟨.str "T", .null, .num 100⟩ : VisitRecord)])] :
        VisitsByUrl).map Prod.fst).Nodup) ∧
    arc_to_firefox_time 100 ≤
      (some (978307300000000 : ℤ)).getD 0 ∧
    (runImport hash0 0 [("a", [⟨.str "T", .null, .num 100⟩])]
        (Store.mk [⟨7, "a", .str "old", "", 5, 0, 1, 42, some 978307300000000,
          "g", 0, 0⟩] [])).places[0]? =
      some ⟨7, "a", .str "old", "", 5, 0, 1, 42, some 978307300000000,
        "g", 0, 0⟩ := by
  refine ⟨by simp, ?_, ?_⟩
  · show arc_to_firefox_time 100 ≤ 978307300000000
    have : arc_to_firefox_time 100 = 978307300000000 := by
      with_unfolding_all rfl
    omega
  · refine C3_no_update_when_not_newer hash0 0 _ _ "a"
      [⟨.str "T", .null, .num 100⟩]
      ⟨7, "a", .str "old", "", 5, 0, 1, 42, some 978307300000000, "g", 0, 0⟩
      0 ⟨.str "T", .null, .num 100⟩ 100 (by simp) (by simp) (by simp)
      rfl (fun j hj => absurd hj (Nat.not_lt_zero j)) rfl rfl rfl ?_
    show arc_to_firefox_time 100 ≤ (some (978307300000000 : ℤ)).getD 0
    have : arc_to_firefox_time 100 = 978307300000000 := by
      with_unfolding_all rfl
    rw [this]
    simp

/-- C6: importing `c6Archive` into an empty store (pinned hash and wall
clock; neither affects the checked fields) succeeds and yields exactly 2
place rows and 3 visit rows, with the "a" row carrying the converted
timestamp 200 (978307400000000 μs) and a visit count of 2. -/
theorem C6_end_to_end :
    (mainRun hash0 0 (some c6Archive) false emptyStore).1 = 0 ∧
    (mainRun hash0 0 (some c6Archive) false emptyStore).2.places.length = 2 ∧
    (mainRun hash0 0 (some c6Archive) false emptyStore).2.visits.length = 3 ∧
    ((mainRun hash0 0 (some c6Archive) false emptyStore).2.places.find?
        (fun p => p.url == "https://example.com/a")).map
      (fun p => (p.last_visit_date, p.visit_count)) =
        some (some ((200 + 978307200) * 1000000), 2) := by
  refine ⟨?_, ?_, ?_, ?_⟩ <;> with_unfolding_all rfl
